import Mathlib

set_option maxRecDepth 10000

/-!
Verification of the peekaboo classical-cryptanalysis engine.

Shallow embedding conventions:
* Rust `char` values are modelled as natural-number code points (`ℕ`);
  a text (`&str`) is a `List ℕ`.  All characters the algorithms inspect
  are ASCII, where code points and Rust's byte/char views coincide.
* Rust `f64` arithmetic is modelled exactly over `ℚ`; `f64::MAX` becomes
  the rational constant `f64MAX` (the exact value of the largest finite
  double, `2^1024 - 2^971`).
* Rust `i8`/`i16` shift arithmetic is modelled over `ℤ` (the source's
  widening to `i16` makes the computation overflow-free, so `ℤ` is exact).
* Fallible computations (`Option<T>`) become `Option` values.
* `Vec::sort_by` (a stable sort) is modelled by `List.insertionSort`,
  which is also stable; the comparators used by the source are total
  preorders, so the sorted output is the same.
-/

namespace Peekaboo

/-! ### Character primitives (src/cipher_utils.rs and char classification) -/

/-- `char::is_ascii_alphabetic`: `A`-`Z` (65-90) or `a`-`z` (97-122). -/
def isAsciiAlpha (c : ℕ) : Bool :=
  (65 ≤ c && c ≤ 90) || (97 ≤ c && c ≤ 122)

/-- `char::is_ascii_uppercase`: `A`-`Z` (65-90). -/
def isAsciiUpper (c : ℕ) : Bool :=
  65 ≤ c && c ≤ 90

/-- `char::to_ascii_uppercase`: lowercase letters move down by 32. -/
def toUpper (c : ℕ) : ℕ :=
  if 97 ≤ c && c ≤ 122 then c - 32 else c

/-- The 0-based alphabet index of a letter, `(c.to_ascii_uppercase() as u8 - b'A')`. -/
def letterIndex (c : ℕ) : ℕ := toUpper c - 65

/-- `cipher_utils::shift_char`.  Non-letters are returned unchanged; letters are
rotated by `shift` inside their own case's 26-letter band.  The source widens to
`i16` and uses `rem_euclid(26)`, which is exactly `Int.emod` here. -/
def shift_char (c : ℕ) (shift : ℤ) : ℕ :=
  if !(isAsciiAlpha c) then c
  else
    let base : ℕ := if isAsciiUpper c then 65 else 97
    ((base : ℤ) + ((c : ℤ) - (base : ℤ) + shift) % 26).toNat

/-- `cipher_utils::shift_char_string`: map `shift_char` over the text. -/
def shift_char_string (s : List ℕ) (shift : ℤ) : List ℕ :=
  s.map (fun c => shift_char c shift)

/-! ### Vigenère encryption/decryption (src/ciphers/vigenere/decode.rs) -/

/-- Loop body of `vigenere_decrypt`: walk the text, applying the negated key
shift at each letter and advancing `key_index` only on letters.  `kb` is the
uppercased keyword byte list (nonempty whenever this is reached). -/
def vigenereDecGo (kb : List ℕ) : ℕ → List ℕ → List ℕ
  | _, [] => []
  | ki, c :: rest =>
    if isAsciiAlpha c then
      shift_char c (-(((kb.getD (ki % kb.length) 65 : ℕ) : ℤ) - 65)) ::
        vigenereDecGo kb (ki + 1) rest
    else
      c :: vigenereDecGo kb ki rest

/-- `vigenere_decrypt`.  An empty or non-alphabetic keyword returns the
ciphertext unchanged. -/
def vigenere_decrypt (ciphertext keyword : List ℕ) : List ℕ :=
  if keyword.isEmpty || !(keyword.all isAsciiAlpha) then ciphertext
  else vigenereDecGo (keyword.map toUpper) 0 ciphertext

/-- Loop body of `vigenere_encrypt`, same walk with the positive key shift. -/
def vigenereEncGo (kb : List ℕ) : ℕ → List ℕ → List ℕ
  | _, [] => []
  | ki, c :: rest =>
    if isAsciiAlpha c then
      shift_char c (((kb.getD (ki % kb.length) 65 : ℕ) : ℤ) - 65) ::
        vigenereEncGo kb (ki + 1) rest
    else
      c :: vigenereEncGo kb ki rest

/-- `vigenere_encrypt`.  An empty or non-alphabetic keyword returns the
plaintext unchanged. -/
def vigenere_encrypt (plaintext keyword : List ℕ) : List ℕ :=
  if keyword.isEmpty || !(keyword.all isAsciiAlpha) then plaintext
  else vigenereEncGo (keyword.map toUpper) 0 plaintext

/-! ### Frequency and likelihood analysis (src/analysis.rs) -/

/-- `analysis::get_alphabetic_chars`: keep only ASCII letters. -/
def get_alphabetic_chars (t : List ℕ) : List ℕ := t.filter isAsciiAlpha

/-- Number of ASCII letters in a text (the source's `total_chars` tally). -/
def alphaCount (t : List ℕ) : ℕ := (get_alphabetic_chars t).length

/-- The per-letter tally `counts[i]`.  The source fills a 26-bucket array in one
pass over the letters; bucket `i` ends up holding exactly the number of letters
whose alphabet index is `i`. -/
def letterCounts (l : List ℕ) (i : ℕ) : ℕ :=
  l.countP (fun c => decide (letterIndex c = i))

/-- `analysis::calculate_frequencies`: `None` when there are no letters,
otherwise the 26 relative frequencies together with the letter total.
(The source's `index < 26` re-check is vacuous for ASCII letters.) -/
def calculate_frequencies (t : List ℕ) : Option ((Fin 26 → ℚ) × ℕ) :=
  let total := alphaCount t
  if total = 0 then none
  else
    some (fun i => ((letterCounts (get_alphabetic_chars t) i.val : ℚ) / (total : ℚ)), total)

/-- The exact value of `f64::MAX`, `(2 - 2^-52) * 2^1023`. -/
def f64MAX : ℚ := 2 ^ 1024 - 2 ^ 971

/-- `analysis::ENGLISH_FREQUENCIES` as exact rationals, `A` through `Z`. -/
def ENGLISH_FREQUENCIES_LIST : List ℚ :=
  [8167/100000, 1492/100000, 2782/100000, 4253/100000, 12702/100000,
   2228/100000, 2015/100000, 6094/100000, 6966/100000, 153/100000,
   772/100000, 4025/100000, 2406/100000, 6749/100000, 7507/100000,
   1929/100000, 95/100000, 5987/100000, 6327/100000, 9056/100000,
   2758/100000, 978/100000, 2360/100000, 150/100000, 1974/100000,
   74/100000]

def ENGLISH_FREQUENCIES : Fin 26 → ℚ := fun i => ENGLISH_FREQUENCIES_LIST.getD i.val 0

/-- `analysis::ENGLISH_IC = 0.0667`. -/
def ENGLISH_IC : ℚ := 667 / 10000

/-- `analysis::RANDOM_IC = 1.0 / 26.0`. -/
def RANDOM_IC : ℚ := 1 / 26

/-- The accumulation loop of `chi_squared_score`, with the source's early
`return f64::MAX` on a zero expected bucket with nonzero observed count. -/
def chiAux (observed expected : Fin 26 → ℚ) : List (Fin 26) → ℚ → ℚ
  | [], acc => acc
  | i :: rest, acc =>
    if expected i = 0 then
      if observed i ≠ 0 then f64MAX
      else chiAux observed expected rest acc
    else
      chiAux observed expected rest
        (acc + (observed i - expected i) * (observed i - expected i) / expected i)

/-- `analysis::chi_squared_score`. -/
def chi_squared_score (observed expected : Fin 26 → ℚ) : ℚ :=
  chiAux observed expected (List.finRange 26) 0

/-- `analysis::score_english_likelihood`. -/
def score_english_likelihood (t : List ℕ) : Option ℚ :=
  (calculate_frequencies t).map (fun p => chi_squared_score p.1 ENGLISH_FREQUENCIES)

/-- `analysis::calculate_ic`: `None` below 2 letters, otherwise
`sum(count_i * (count_i - 1)) / (n * (n - 1))`.  The source's loop over the 26
buckets is the list sum below. -/
def calculate_ic (t : List ℕ) : Option ℚ :=
  let alpha := get_alphabetic_chars t
  let n := alpha.length
  if n < 2 then none
  else
    let s : ℚ := ((List.finRange 26).map (fun i =>
      (letterCounts alpha i.val : ℚ) * ((letterCounts alpha i.val : ℚ) - 1))).sum
    some (s / ((n : ℚ) * ((n : ℚ) - 1)))

/-! ### Kasiski key-length estimation (src/analysis.rs) -/

/-- The length-`len` substring of `t` starting at position `i`
(the source's byte slice `&alpha_text[i..(i+len)]`; the filtered text is pure
ASCII, so byte positions are character positions). -/
def seqAt (t : List ℕ) (len i : ℕ) : List ℕ := (t.drop i).take len

/-- All starting positions of `s` in `t`, in increasing order. -/
def occurrencesOf (t s : List ℕ) : List ℕ :=
  (List.range (t.length + 1 - s.length)).filter (fun i => decide (seqAt t s.length i = s))

/-- `analysis::find_factors`: the divisors of `number`, and `∅` for `0`.
The source collects `i` and `number / i` for every divisor `i ≤ sqrt(number)`
into a `HashSet`, which is exactly the set of all divisors; we list them
directly.  (Votes are summed over this set, so its order is irrelevant.) -/
def find_factors (number : ℕ) : List ℕ :=
  if number = 0 then []
  else (List.range (number + 1)).filter (fun i => decide (i ∣ number))

/-- All ordered pairs `(positions[i], positions[j])` with `i < j`, in the
source's nested-loop order. -/
def pairsOf : List ℕ → List (ℕ × ℕ)
  | [] => []
  | x :: rest => (rest.map (fun y => (x, y))) ++ pairsOf rest

/-- Whether the sequence map already has an entry for `s`
(`sequences.get_mut(seq).is_some()`). -/
def hasKey (m : List (List ℕ × List ℕ)) (s : List ℕ) : Bool :=
  m.any (fun e => decide (e.1 = s))

/-- `positions.push(i)` on the entry for `s`.  The map is modelled as an
association list with distinct keys. -/
def pushPosition (m : List (List ℕ × List ℕ)) (s : List ℕ) (i : ℕ) :
    List (List ℕ × List ℕ) :=
  m.map (fun e => if e.1 = s then (e.1, e.2 ++ [i]) else e)

/-- One iteration of the inner scanning loop of `estimate_key_lengths` at
position `i`, on the in-bounds executions: push the position if the substring
is known, otherwise record it iff it recurs in the strict suffix.
`alpha_text[(i+1)..].contains(seq)` holds iff some occurrence of the substring
starts at a position after `i`.  The source's suffix slice `alpha_text[(i+1)..]`
is out of bounds (a panic) when `i + 1` exceeds the text length; `scanStepP`
below models that partiality faithfully, and `scanStepP_eq` shows this total
step agrees with it whenever `i + 1` is in bounds — which covers every scanned
position once the sequence length is at least `1`. -/
def scanStep (t : List ℕ) (len : ℕ) (m : List (List ℕ × List ℕ)) (i : ℕ) :
    List (List ℕ × List ℕ) :=
  let s := seqAt t len i
  if hasKey m s then pushPosition m s i
  else if (occurrencesOf t s).any (fun j => decide (i < j)) then m ++ [(s, [i])]
  else m

/-- The inner loop `for i in 0..=(alpha_text.len() - len)`. -/
def scanLen (t : List ℕ) (m : List (List ℕ × List ℕ)) (len : ℕ) :
    List (List ℕ × List ℕ) :=
  (List.range (t.length + 1 - len)).foldl (scanStep t len) m

/-- The descending sequence-length range
`(min_len..=min(max_len, n/2)).rev()`. -/
def lensDesc (minLen hi : ℕ) : List ℕ :=
  (List.range' minLen (hi + 1 - minLen)).reverse

/-- The fully built `sequences` map of `estimate_key_lengths`. -/
def buildSequences (t : List ℕ) (minLen maxLen : ℕ) : List (List ℕ × List ℕ) :=
  (lensDesc minLen (min maxLen (t.length / 2))).foldl (scanLen t) []

/-- The source's per-factor filter `factor > 1 && factor <= max_len`. -/
def factorGuard (maxLen f : ℕ) : Bool :=
  decide (1 < f) && decide (f ≤ maxLen)

/-- All factor votes contributed by one sequence entry: one vote per in-range
factor of each pairwise distance of its positions (entries with fewer than two
positions vote nothing, matching `positions.len() > 1`). -/
def entryVotes (maxLen : ℕ) (e : List ℕ × List ℕ) : List ℕ :=
  if 1 < e.2.length then
    (pairsOf e.2).flatMap (fun p => (find_factors (p.2 - p.1)).filter (factorGuard maxLen))
  else []

/-- Every factor vote cast while processing `t` (the multiset behind the
source's `factor_counts` HashMap). -/
def voteList (t : List ℕ) (minLen maxLen : ℕ) : List ℕ :=
  (buildSequences t minLen maxLen).flatMap (entryVotes maxLen)

/-- The sort order of `estimate_key_lengths`' output:
`b.1.cmp(&a.1).then(a.0.cmp(&b.0))`, i.e. descending vote count with ties
broken by ascending factor. -/
def pairBefore (a b : ℕ × ℕ) : Prop :=
  b.2 < a.2 ∨ (b.2 = a.2 ∧ a.1 ≤ b.1)

instance : DecidableRel pairBefore := fun a b => by
  unfold pairBefore
  infer_instance

instance : IsTotal (ℕ × ℕ) pairBefore :=
  ⟨by intro a b; unfold pairBefore; omega⟩

instance : IsTrans (ℕ × ℕ) pairBefore :=
  ⟨by intro a b c; unfold pairBefore; omega⟩

/-- `analysis::estimate_key_lengths`.  The `HashMap<usize, usize>` of vote
counts is modelled by pairing each distinct vote value with its multiplicity;
the concluding `sort_by` comparator is a total order that is antisymmetric on
distinct factors, so the sorted output is independent of hash iteration
order.  `Vec::sort_by` is stable, as is `List.insertionSort`. -/
def estimate_key_lengths (t : List ℕ) (min_len max_len : ℕ) : List (ℕ × ℕ) :=
  let alpha := get_alphabetic_chars t
  if alpha.length < min_len * 2 then []
  else
    let votes := voteList alpha min_len max_len
    List.insertionSort pairBefore (votes.dedup.map (fun f => (f, votes.count f)))

/-- Left fold over a fallible step, stopping at the first fault (the Option
monad's `foldlM`, written out so it computes by structural recursion).  A
Rust loop whose body can panic is modelled by a `none`-producing step. -/
def foldlOpt {α β : Type} (f : β → α → Option β) : β → List α → Option β
  | b, [] => some b
  | b, x :: xs =>
    match f b x with
    | none => none
    | some b2 => foldlOpt f b2 xs

/-- `scanStep` with the source's partiality kept: the byte slice
`alpha_text[(i+1)..]` panics when `i + 1 > alpha_text.len()` (reachable
exactly when the sequence length is `0` and position `i` is the text length,
i.e. for `min_len = 0` on a text with no alphabetic characters); `none`
models that panic.  The in-bounds branches are those of `scanStep`. -/
def scanStepP (t : List ℕ) (len : ℕ) (m : List (List ℕ × List ℕ)) (i : ℕ) :
    Option (List (List ℕ × List ℕ)) :=
  let s := seqAt t len i
  if hasKey m s then some (pushPosition m s i)
  else if t.length < i + 1 then none
  else if (occurrencesOf t s).any (fun j => decide (i < j)) then some (m ++ [(s, [i])])
  else some m

/-- The inner loop `for i in 0..=(alpha_text.len() - len)` with the panic
propagated. -/
def scanLenP (t : List ℕ) (m : List (List ℕ × List ℕ)) (len : ℕ) :
    Option (List (List ℕ × List ℕ)) :=
  foldlOpt (scanStepP t len) m (List.range (t.length + 1 - len))

/-- The sequence-building phase of `estimate_key_lengths` with the panic
propagated. -/
def buildSequencesP (t : List ℕ) (minLen maxLen : ℕ) :
    Option (List (List ℕ × List ℕ)) :=
  foldlOpt (scanLenP t) [] (lensDesc minLen (min maxLen (t.length / 2)))

/-- `analysis::estimate_key_lengths` with the source's partiality kept:
`none` when the scan hits the out-of-bounds suffix slice (a panic), otherwise
`some` of the vote-counted, sorted output.  `estimate_key_lengthsP_eq` shows
it returns `some (estimate_key_lengths t min_len max_len)` whenever
`1 ≤ min_len`, which includes every call site in the repository
(all pass `min_len = 3`). -/
def estimate_key_lengthsP (t : List ℕ) (min_len max_len : ℕ) :
    Option (List (ℕ × ℕ)) :=
  let alpha := get_alphabetic_chars t
  if alpha.length < min_len * 2 then some []
  else
    (buildSequencesP alpha min_len max_len).map (fun seqs =>
      let votes := seqs.flatMap (entryVotes max_len)
      List.insertionSort pairBefore (votes.dedup.map (fun f => (f, votes.count f))))

/-! ### Caesar decryption (src/ciphers/caesar/decode.rs) -/

/-- `decoder::DecryptionAttempt`.  `key` is the key text as a code-point list
(the source uses `String`). -/
structure DecryptionAttempt where
  cipher_name : String
  key : List ℕ
  plaintext : List ℕ
  score : ℚ
deriving DecidableEq

/-- Decimal rendering of a shift key (`shift.to_string()` for `0 ≤ shift ≤ 99`,
which covers the source's shifts `0..26`). -/
def natKeyString (n : ℕ) : List ℕ :=
  if n < 10 then [48 + n] else [48 + n / 10, 48 + n % 10]

/-- One iteration of `run_caesar_decryption`'s shift loop. -/
def caesarStep (ciphertext : List ℕ) (attempts : List DecryptionAttempt)
    (shift : ℕ) : List DecryptionAttempt :=
  let pt := ciphertext.map (fun c => shift_char c (-(shift : ℤ)))
  match score_english_likelihood pt with
  | some score => attempts ++ [⟨"Caesar", natKeyString shift, pt, score⟩]
  | none =>
    if !pt.isEmpty && attempts.isEmpty then
      if shift = 0 ∧ ciphertext.any (fun c => !(isAsciiAlpha c)) then
        attempts ++ [⟨"Caesar", natKeyString shift, pt, f64MAX⟩]
      else attempts
    else attempts

/-- Ascending-score order (`a.score.partial_cmp(&b.score)`; scores are total
here, so the `unwrap_or(Equal)` branch never fires). -/
def caesarBefore (a b : DecryptionAttempt) : Prop := a.score ≤ b.score

instance : DecidableRel caesarBefore := fun a b => by
  unfold caesarBefore
  infer_instance

instance : IsTotal DecryptionAttempt caesarBefore :=
  ⟨fun a b => le_total a.score b.score⟩

instance : IsTrans DecryptionAttempt caesarBefore :=
  ⟨fun _ _ _ h1 h2 => le_trans h1 h2⟩

/-- `run_caesar_decryption`: try all 26 shifts, then sort ascending by score. -/
def run_caesar_decryption (ciphertext : List ℕ) : List DecryptionAttempt :=
  List.insertionSort caesarBefore ((List.range 26).foldl (caesarStep ciphertext) [])

/-! ### Vigenère decryption driver (src/ciphers/vigenere/decode.rs)

The driver calls two analysis functions whose definitions are not present in
the provided sources (`analysis::find_top_n_caesar_shifts_mic` and
`analysis::score_trigram_log_prob`); the driver is therefore parameterized by
them: `mic column topN` abstracts the MIC ranking (already projected to its
shift components, as the driver immediately discards the scores), and
`scoreFn` abstracts the trigram log-probability score. -/

/-- `.skip(i).step_by(k)` after the skip has already happened: every `k`-th
element of `l` starting with the first. -/
def takeEvery (k : ℕ) (l : List ℕ) : List ℕ :=
  (l.enum.filter (fun p => decide (p.1 % k = 0))).map Prod.snd

def DEFAULT_KEY_LENGTHS_TO_TRY : List ℕ := [2, 3, 4, 5, 6, 7]

def TOP_N_SHIFTS_PER_COLUMN : ℕ := 3

def MAX_VIGENERE_KEY_LEN_TO_ATTEMPT : ℕ := 15

/-- The candidate key-length computation of `run_vigenere_decryption`
(bounds `MIN_KASISKI_SEQ_LEN_DEC = 3`, `MAX_KASISKI_KEY_LEN_DEC = 20`,
`MAX_KEY_LENGTHS_TO_TRY = 4`): Kasiski estimates if any, else the fixed
default list; in either case filtered to the attempt cap. -/
def vigenereKeyLengthsToTry (alpha : List ℕ) : List ℕ :=
  let est := estimate_key_lengths alpha 3 20
  (if est.isEmpty then DEFAULT_KEY_LENGTHS_TO_TRY
   else (est.take 4).map Prod.fst).filter
    (fun len => len ≤ MAX_VIGENERE_KEY_LEN_TO_ATTEMPT)

/-- The per-column MIC loop: collect each column's top shifts, abandoning the
whole key length (`possible_key = false`) if any column fails. -/
def collectColumns (mic : List ℕ → ℕ → Option (List ℕ)) (alpha : List ℕ)
    (key_len : ℕ) : Option (List (List ℕ)) :=
  (List.range key_len).foldl
    (fun acc i => acc.bind (fun ls =>
      (mic (takeEvery key_len (alpha.drop i)) TOP_N_SHIFTS_PER_COLUMN).map
        (fun shifts => ls ++ [shifts])))
    (some [])

/-- `itertools::multi_cartesian_product` over the per-column shift lists. -/
def multiCartesianProduct : List (List ℕ) → List (List ℕ)
  | [] => [[]]
  | l :: rest => l.flatMap (fun x => (multiCartesianProduct rest).map (fun c => x :: c))

/-- Descending-score order (`b.score.partial_cmp(&a.score)`). -/
def vigenereBefore (a b : DecryptionAttempt) : Prop := b.score ≤ a.score

instance : DecidableRel vigenereBefore := fun a b => by
  unfold vigenereBefore
  infer_instance

instance : IsTotal DecryptionAttempt vigenereBefore :=
  ⟨fun a b => le_total b.score a.score⟩

instance : IsTrans DecryptionAttempt vigenereBefore :=
  ⟨fun _ _ _ h1 h2 => le_trans h2 h1⟩

/-- The body of `run_vigenere_decryption`'s loop over one candidate key
length: keyword = `(b'A' + shift)` per column, decrypt, score, append. -/
def vigenereTryLength (mic : List ℕ → ℕ → Option (List ℕ))
    (scoreFn : List ℕ → ℚ) (ciphertext alpha : List ℕ)
    (attempts : List DecryptionAttempt) (key_len : ℕ) : List DecryptionAttempt :=
  if key_len = 0 then attempts
  else
    match collectColumns mic alpha key_len with
    | none => attempts
    | some shiftLists =>
      (multiCartesianProduct shiftLists).foldl
        (fun acc comb =>
          let keyword := comb.map (fun shift => 65 + shift)
          if keyword.isEmpty then acc
          else
            acc ++ [⟨"Vigenere", keyword, vigenere_decrypt ciphertext keyword,
                     scoreFn (vigenere_decrypt ciphertext keyword)⟩])
        attempts

/-- `run_vigenere_decryption`, parameterized by the missing analysis
functions (see section comment). -/
def run_vigenere_decryption (mic : List ℕ → ℕ → Option (List ℕ))
    (scoreFn : List ℕ → ℚ) (ciphertext : List ℕ) (min_text_len : ℕ) :
    List DecryptionAttempt :=
  let alpha := get_alphabetic_chars ciphertext
  if alpha.length < min_text_len then []
  else
    List.insertionSort vigenereBefore
      ((vigenereKeyLengthsToTry alpha).foldl
        (vigenereTryLength mic scoreFn ciphertext alpha) [])

/-! ### Vigenère identification (src/ciphers/vigenere/identify.rs) -/

/-- `identifier::IdentificationResult`.  The source's `parameters` is a
formatted display string built from the IC and the first five key-length
estimates; we keep the estimate data itself (the claims only concern the
confidence score and when a result exists). -/
structure IdentificationResult where
  cipher_name : String
  confidence_score : ℚ
  parameters : List (ℕ × ℕ)
deriving DecidableEq

/-- `run_vigenere_identification` (bounds `MIN_KASISKI_SEQ_LEN = 3`,
`MAX_KASISKI_KEY_LEN = 20`).  Note `0.005 = 5/1000` and
`x.max(0.0).min(1.0) = min (max x 0) 1`. -/
def run_vigenere_identification (t : List ℕ) (min_text_len : ℕ) :
    Option IdentificationResult :=
  let alpha := get_alphabetic_chars t
  if alpha.length < min_text_len then none
  else
    match calculate_ic alpha with
    | none => none
    | some ic =>
      if ENGLISH_IC - 5/1000 < ic then none
      else
        some ⟨"Vigenere",
              min (max ((ENGLISH_IC - ic) / (ENGLISH_IC - RANDOM_IC)) 0) 1,
              (estimate_key_lengths alpha 3 20).take 5⟩

/-! ### Spec-level definitions

The definitions in this section are not translations of source code: they
state, in the spec's own terms, what certain claims assert, so that the code's
behaviour can be compared against them. -/

/-- Occurrence positions of `s` in `t` restricted to positions below `K`
(the state of a sequence-map entry after the scan has processed positions
`0..K`). -/
def partialOcc (t s : List ℕ) (K : ℕ) : List ℕ :=
  (occurrencesOf t s).filter (fun i => decide (i < K))

/-- Position `i` contributes a fresh sequence-map entry: it is the first
occurrence of its length-`len` substring, and that substring recurs. -/
def isNewRepeat (t : List ℕ) (len i : ℕ) : Bool :=
  (decide ((occurrencesOf t (seqAt t len i)).head? = some i)) &&
    decide (2 ≤ (occurrencesOf t (seqAt t len i)).length)

/-- The substrings recorded by the scan of length `len` after processing
positions `0..K`, in insertion order. -/
def newKeys (t : List ℕ) (len K : ℕ) : List (List ℕ) :=
  ((List.range K).filter (isNewRepeat t len)).map (seqAt t len)

/-- The sequence-map entries contributed by the scan of length `len` after
processing positions `0..K`. -/
def scanEntries (t : List ℕ) (len K : ℕ) : List (List ℕ × List ℕ) :=
  (newKeys t len K).map (fun s => (s, partialOcc t s K))

/-- The sequence map accumulated over a list of scan lengths. -/
def allEntries (t : List ℕ) (lens : List ℕ) : List (List ℕ × List ℕ) :=
  lens.flatMap (fun len =>
    (newKeys t len (t.length + 1 - len)).map (fun s => (s, occurrencesOf t s)))

/-- Spec-level: the distinct length-`len` substrings of `t` that occur at
least twice. -/
def repeatedSubstrings (t : List ℕ) (len : ℕ) : List (List ℕ) :=
  (((List.range (t.length + 1 - len)).map (seqAt t len)).dedup).filter
    (fun s => decide (2 ≤ (occurrencesOf t s).length))

/-- Spec-level vote count for a factor `f`: one vote for each factor
`1 < f ≤ max_len` of each pairwise distance between occurrence positions of
every repeated substring (over the scanned sequence lengths). -/
def specVotes (t : List ℕ) (min_len max_len f : ℕ) : ℕ :=
  if 1 < f ∧ f ≤ max_len then
    let alpha := get_alphabetic_chars t
    ((lensDesc min_len (min max_len (alpha.length / 2))).map (fun len =>
      ((repeatedSubstrings alpha len).map (fun s =>
        (pairsOf (occurrencesOf alpha s)).countP
          (fun p => decide (f ∣ (p.2 - p.1))))).sum)).sum
  else 0

/-- Modelled from the spec: the IC periodicity key-length test (§4.3), which
is absent from the provided sources.  "For each candidate key length in
`[minLen, maxLen]`, splits the alphabetic signal into that many interleaved
columns (column `i` = every `length`-th letter starting at offset `i`),
computes the IC of each column, averages valid columns' IC": the unsorted
(length, average-IC) list. -/
def icScored (t : List ℕ) (min_len max_len : ℕ) : List (ℕ × ℚ) :=
  let alpha := get_alphabetic_chars t
  (List.range' min_len (max_len + 1 - min_len)).filterMap (fun L =>
    let ics := ((List.range L).map (fun i =>
      takeEvery L (alpha.drop i))).filterMap calculate_ic
    if ics.isEmpty then none
    else some (L, ics.sum / (ics.length : ℚ)))

/-- Modelled from the spec: "ranks candidate lengths by closeness of this
average to the reference English IC". -/
def icCloser (a b : ℕ × ℚ) : Prop :=
  |a.2 - ENGLISH_IC| ≤ |b.2 - ENGLISH_IC|

instance : DecidableRel icCloser := fun a b => by
  unfold icCloser
  infer_instance

/-- Modelled from the spec: the ranked IC-periodicity estimates. -/
def ic_periodicity_estimates (t : List ℕ) (min_len max_len : ℕ) : List (ℕ × ℚ) :=
  List.insertionSort icCloser (icScored t min_len max_len)

/-- Modelled from the spec: the candidate key lengths that §4.5 step 1 claims
`run_vigenere_decryption` uses — "prefer IC-periodicity results; if empty,
fall back to Kasiski; if both empty, fall back to a fixed default set of small
lengths.  Filter to an upper bound on attempted key length" — with the
Kasiski bounds (3, 20) and cap (15) that the decoder actually uses. -/
def claimedKeyLengthsToTry (t : List ℕ) : List ℕ :=
  let ic := (ic_periodicity_estimates t 3 20).map Prod.fst
  let kas := (estimate_key_lengths t 3 20).map Prod.fst
  (if !ic.isEmpty then ic
   else if !kas.isEmpty then kas
   else DEFAULT_KEY_LENGTHS_TO_TRY).filter
    (fun len => len ≤ MAX_VIGENERE_KEY_LEN_TO_ATTEMPT)

/-- The rotation `i ↦ (i - k) mod 26` as a permutation of the 26 letter
indices (proof helper for IC shift invariance). -/
def rotEquiv (k : ℤ) : Fin 26 ≃ Fin 26 where
  toFun i := ⟨(((i.val : ℤ) - k) % 26).toNat, by
    have h1 : 0 ≤ ((i.val : ℤ) - k) % 26 := Int.emod_nonneg _ (by norm_num)
    have h2 : ((i.val : ℤ) - k) % 26 < 26 := Int.emod_lt_of_pos _ (by norm_num)
    omega⟩
  invFun j := ⟨(((j.val : ℤ) + k) % 26).toNat, by
    have h1 : 0 ≤ ((j.val : ℤ) + k) % 26 := Int.emod_nonneg _ (by norm_num)
    have h2 : ((j.val : ℤ) + k) % 26 < 26 := Int.emod_lt_of_pos _ (by norm_num)
    omega⟩
  left_inv i := by
    apply Fin.ext
    simp only [Fin.val_mk]
    have h1 : 0 ≤ ((i.val : ℤ) - k) % 26 := Int.emod_nonneg _ (by norm_num)
    have h2 : ((i.val : ℤ) - k) % 26 < 26 := Int.emod_lt_of_pos _ (by norm_num)
    have h3 := i.isLt
    have hsplit := Int.emod_add_ediv ((i.val : ℤ) - k) 26
    generalize hXg : ((i.val : ℤ) - k) % 26 = X at h1 h2 hsplit ⊢
    generalize hqg : ((i.val : ℤ) - k) / 26 = q at hsplit
    omega
  right_inv j := by
    apply Fin.ext
    simp only [Fin.val_mk]
    have h1 : 0 ≤ ((j.val : ℤ) + k) % 26 := Int.emod_nonneg _ (by norm_num)
    have h2 : ((j.val : ℤ) + k) % 26 < 26 := Int.emod_lt_of_pos _ (by norm_num)
    have h3 := j.isLt
    have hsplit := Int.emod_add_ediv ((j.val : ℤ) + k) 26
    generalize hXg : ((j.val : ℤ) + k) % 26 = X at h1 h2 hsplit ⊢
    generalize hqg : ((j.val : ℤ) + k) / 26 = q at hsplit
    omega

/-! ### Basic lemmas about `shift_char` -/

theorem shift_char_of_not_alpha {c : ℕ} (h : isAsciiAlpha c = false) (k : ℤ) :
    shift_char c k = c := by
  simp [shift_char, h]

theorem emod26_nonneg (x : ℤ) : 0 ≤ x % 26 := Int.emod_nonneg x (by norm_num)

theorem emod26_lt (x : ℤ) : x % 26 < 26 := Int.emod_lt_of_pos x (by norm_num)

/-- Unfolding `shift_char` on an uppercase letter. -/
theorem shift_char_upper_eq {c : ℕ} (h : isAsciiAlpha c = true)
    (hu : isAsciiUpper c = true) (k : ℤ) :
    shift_char c k = ((65 : ℤ) + ((c : ℤ) - 65 + k) % 26).toNat := by
  simp [shift_char, h, hu]

/-- Unfolding `shift_char` on a lowercase letter. -/
theorem shift_char_lower_eq {c : ℕ} (h : isAsciiAlpha c = true)
    (hu : isAsciiUpper c = false) (k : ℤ) :
    shift_char c k = ((97 : ℤ) + ((c : ℤ) - 97 + k) % 26).toNat := by
  simp [shift_char, h, hu]

/-- For a letter, `shift_char` lands in the same case band `[base, base+25]`. -/
theorem shift_char_mem_band {c : ℕ} (h : isAsciiAlpha c = true) (k : ℤ) :
    (isAsciiUpper c = true ∧ 65 ≤ shift_char c k ∧ shift_char c k ≤ 90) ∨
    (isAsciiUpper c = false ∧ 97 ≤ shift_char c k ∧ shift_char c k ≤ 122) := by
  by_cases hu : isAsciiUpper c = true
  · left
    rw [shift_char_upper_eq h hu]
    have h1 := emod26_nonneg ((c : ℤ) - 65 + k)
    have h2 := emod26_lt ((c : ℤ) - 65 + k)
    refine ⟨hu, ?_, ?_⟩ <;> omega
  · have hu' : isAsciiUpper c = false := by
      cases hh : isAsciiUpper c
      · rfl
      · exact absurd hh hu
    right
    rw [shift_char_lower_eq h hu']
    have h1 := emod26_nonneg ((c : ℤ) - 97 + k)
    have h2 := emod26_lt ((c : ℤ) - 97 + k)
    refine ⟨hu', ?_, ?_⟩ <;> omega

/-- Shifting preserves being a letter. -/
theorem isAsciiAlpha_shift_char {c : ℕ} (h : isAsciiAlpha c = true) (k : ℤ) :
    isAsciiAlpha (shift_char c k) = true := by
  rcases shift_char_mem_band h k with ⟨_, h1, h2⟩ | ⟨_, h1, h2⟩ <;>
    simp [isAsciiAlpha] <;> omega

/-- Shifting preserves the case of a letter. -/
theorem isAsciiUpper_shift_char {c : ℕ} (h : isAsciiAlpha c = true) (k : ℤ) :
    isAsciiUpper (shift_char c k) = isAsciiUpper c := by
  rcases shift_char_mem_band h k with ⟨hu, h1, h2⟩ | ⟨hu, h1, h2⟩ <;>
    rw [hu] <;> simp [isAsciiUpper] <;> omega

/-- Round trip of a single character: shifting by `s` then by `-s` is the identity. -/
theorem shift_char_shift_char_neg (c : ℕ) (s : ℤ) :
    shift_char (shift_char c s) (-s) = c := by
  by_cases h : isAsciiAlpha c = true
  · have halpha := isAsciiAlpha_shift_char h s
    have hcase := isAsciiUpper_shift_char h s
    by_cases hu : isAsciiUpper c = true
    · have hb : 65 ≤ c ∧ c ≤ 90 := by simpa [isAsciiUpper] using hu
      have hX1 := emod26_nonneg ((c : ℤ) - 65 + s)
      have hX2 := emod26_lt ((c : ℤ) - 65 + s)
      have hsplit := Int.emod_add_ediv ((c : ℤ) - 65 + s) 26
      have hline : ((shift_char c s : ℕ) : ℤ)
          = 65 + ((c : ℤ) - 65 + s) % 26 := by
        rw [shift_char_upper_eq h hu]
        omega
      rw [shift_char_upper_eq halpha (hcase.trans hu) (-s), hline]
      generalize hXg : ((c : ℤ) - 65 + s) % 26 = X at hX1 hX2 hsplit ⊢
      generalize hqg : ((c : ℤ) - 65 + s) / 26 = q at hsplit
      omega
    · have hu' : isAsciiUpper c = false := by
        cases hh : isAsciiUpper c
        · rfl
        · exact absurd hh hu
      have hb : 97 ≤ c ∧ c ≤ 122 := by
        simp [isAsciiAlpha, isAsciiUpper] at h hu'
        omega
      have hX1 := emod26_nonneg ((c : ℤ) - 97 + s)
      have hX2 := emod26_lt ((c : ℤ) - 97 + s)
      have hsplit := Int.emod_add_ediv ((c : ℤ) - 97 + s) 26
      have hline : ((shift_char c s : ℕ) : ℤ)
          = 97 + ((c : ℤ) - 97 + s) % 26 := by
        rw [shift_char_lower_eq h hu']
        omega
      rw [shift_char_lower_eq halpha (hcase.trans hu') (-s), hline]
      generalize hXg : ((c : ℤ) - 97 + s) % 26 = X at hX1 hX2 hsplit ⊢
      generalize hqg : ((c : ℤ) - 97 + s) / 26 = q at hsplit
      omega
  · have hfalse : isAsciiAlpha c = false := by
      cases hh : isAsciiAlpha c
      · rfl
      · exact absurd hh h
    rw [shift_char_of_not_alpha hfalse, shift_char_of_not_alpha hfalse]

/-! ### Lemmas about the chi-squared loop -/

/-- If some index in the remaining list has a zero expected bucket with a
nonzero observed count, the loop returns `f64MAX` no matter the accumulator. -/
theorem chiAux_bad (o e : Fin 26 → ℚ) (L : List (Fin 26)) (acc : ℚ)
    (h : ∃ i ∈ L, e i = 0 ∧ o i ≠ 0) : chiAux o e L acc = f64MAX := by
  induction L generalizing acc with
  | nil => simp at h
  | cons j rest ih =>
    rcases h with ⟨i, hi, he, ho⟩
    rcases List.mem_cons.mp hi with rfl | hmem
    · simp [chiAux, he, ho]
    · by_cases hj : e j = 0
      · by_cases hoj : o j = 0
        · rw [show chiAux o e (j :: rest) acc = chiAux o e rest acc by
            simp [chiAux, hj, hoj]]
          exact ih _ ⟨i, hmem, he, ho⟩
        · simp [chiAux, hj, hoj]
      · rw [show chiAux o e (j :: rest) acc
            = chiAux o e rest (acc + (o j - e j) * (o j - e j) / e j) by
            simp [chiAux, hj]]
        exact ih _ ⟨i, hmem, he, ho⟩

/-- If no remaining index is a zero-expected/nonzero-observed bucket, the loop
adds the chi-squared contributions of the remaining indices to the
accumulator (buckets with both entries zero contribute the junk value
`(0-0)²/0 = 0`, i.e. nothing). -/
theorem chiAux_good (o e : Fin 26 → ℚ) (L : List (Fin 26)) (acc : ℚ)
    (h : ∀ i ∈ L, e i = 0 → o i = 0) :
    chiAux o e L acc
      = acc + (L.map (fun i => (o i - e i) * (o i - e i) / e i)).sum := by
  induction L generalizing acc with
  | nil => simp [chiAux]
  | cons j rest ih =>
    have hrest : ∀ i ∈ rest, e i = 0 → o i = 0 :=
      fun i hi => h i (List.mem_cons_of_mem j hi)
    by_cases hj : e j = 0
    · have hoj : o j = 0 := h j (List.mem_cons_self j rest) hj
      rw [show chiAux o e (j :: rest) acc = chiAux o e rest acc by
          simp [chiAux, hj, hoj]]
      rw [ih _ hrest]
      simp [hj, hoj]
    · rw [show chiAux o e (j :: rest) acc
          = chiAux o e rest (acc + (o j - e j) * (o j - e j) / e j) by
          simp [chiAux, hj]]
      rw [ih _ hrest]
      simp only [List.map_cons, List.sum_cons]
      ring

/-! ### Claim C6: chi-squared score -/

/-- **C6.**  For all 26-entry observed and expected profiles,
`chi_squared_score` returns the sum over the 26 letters of
`(observed-expected)²/expected`; whenever some expected bucket is zero with a
nonzero observed value, the result is the maximum representable value
(`f64MAX`), never obtained through a division by zero; buckets where both
profiles are zero contribute nothing (the summand below is the junk value `0`
there), and in particular `chi_squared_score p p = 0` for every profile. -/
theorem claim_C6 (o e : Fin 26 → ℚ) :
    (chi_squared_score o e
      = if ∃ i, e i = 0 ∧ o i ≠ 0 then f64MAX
        else ∑ i : Fin 26, (o i - e i) * (o i - e i) / e i) ∧
    chi_squared_score e e = 0 := by
  constructor
  · by_cases hbad : ∃ i, e i = 0 ∧ o i ≠ 0
    · rw [if_pos hbad]
      rcases hbad with ⟨i, he, ho⟩
      exact chiAux_bad o e _ 0 ⟨i, List.mem_finRange i, he, ho⟩
    · rw [if_neg hbad]
      push_neg at hbad
      rw [chi_squared_score, chiAux_good o e _ 0 (fun i _ hi => hbad i hi),
        zero_add, Fin.sum_univ_def]
  · rw [chi_squared_score,
      chiAux_good e e _ 0 (fun i _ hi => hi), zero_add]
    rw [List.sum_eq_zero]
    intro x hx
    rcases List.mem_map.mp hx with ⟨i, _, rfl⟩
    simp

/-! ### Claim C8: absence signalling for insufficient alphabetic content -/

/-- **C8.**  `calculate_frequencies` and `score_english_likelihood` return
`none` exactly when the input has zero ASCII letters, and `calculate_ic`
returns `none` exactly when the input has fewer than two ASCII letters;
insufficiency is signalled by the absent value. -/
theorem claim_C8 (t : List ℕ) :
    (calculate_frequencies t = none ↔ alphaCount t = 0) ∧
    (score_english_likelihood t = none ↔ alphaCount t = 0) ∧
    (calculate_ic t = none ↔ alphaCount t < 2) := by
  have h1 : calculate_frequencies t = none ↔ alphaCount t = 0 := by
    rw [calculate_frequencies]
    split_ifs with h
    · simp [h]
    · simp [h]
  refine ⟨h1, ?_, ?_⟩
  · rw [score_english_likelihood, Option.map_eq_none']
    exact h1
  · rw [calculate_ic]
    split_ifs with h
    · simpa [alphaCount] using h
    · simpa [alphaCount] using h

/-! ### Claim C10: the Caesar decoder on the empty string -/

/-- **C10.**  `run_caesar_decryption` applied to the empty string returns the
empty result list: no sentinel zero-shift row is emitted for the empty
input. -/
theorem claim_C10 : run_caesar_decryption [] = [] := by decide

/-! ### Claim C2: Vigenère encrypt/decrypt round trip -/

theorem vigenereEncGo_cons_alpha (kb : List ℕ) (ki c : ℕ) (rest : List ℕ)
    (hc : isAsciiAlpha c = true) :
    vigenereEncGo kb ki (c :: rest)
      = shift_char c (((kb.getD (ki % kb.length) 65 : ℕ) : ℤ) - 65)
          :: vigenereEncGo kb (ki + 1) rest := by
  simp [vigenereEncGo, hc]

theorem vigenereEncGo_cons_other (kb : List ℕ) (ki c : ℕ) (rest : List ℕ)
    (hc : isAsciiAlpha c = false) :
    vigenereEncGo kb ki (c :: rest) = c :: vigenereEncGo kb ki rest := by
  simp [vigenereEncGo, hc]

theorem vigenereDecGo_cons_alpha (kb : List ℕ) (ki c : ℕ) (rest : List ℕ)
    (hc : isAsciiAlpha c = true) :
    vigenereDecGo kb ki (c :: rest)
      = shift_char c (-(((kb.getD (ki % kb.length) 65 : ℕ) : ℤ) - 65))
          :: vigenereDecGo kb (ki + 1) rest := by
  simp [vigenereDecGo, hc]

theorem vigenereDecGo_cons_other (kb : List ℕ) (ki c : ℕ) (rest : List ℕ)
    (hc : isAsciiAlpha c = false) :
    vigenereDecGo kb ki (c :: rest) = c :: vigenereDecGo kb ki rest := by
  simp [vigenereDecGo, hc]

/-- The walking loops are mutually inverse for every key byte list and every
starting key index: decryption reverses each character shift made by
encryption and the two walks advance `key_index` in lockstep. -/
theorem vigenereGo_round_trip (kb : List ℕ) (p : List ℕ) :
    ∀ ki, vigenereDecGo kb ki (vigenereEncGo kb ki p) = p := by
  induction p with
  | nil => intro ki; rfl
  | cons c rest ih =>
    intro ki
    by_cases hc : isAsciiAlpha c = true
    · have hs := isAsciiAlpha_shift_char hc
        (((kb.getD (ki % kb.length) 65 : ℕ) : ℤ) - 65)
      rw [vigenereEncGo_cons_alpha kb ki c rest hc,
        vigenereDecGo_cons_alpha kb ki _ _ hs,
        shift_char_shift_char_neg, ih]
    · have hc' : isAsciiAlpha c = false := by
        cases hh : isAsciiAlpha c
        · rfl
        · exact absurd hh hc
      rw [vigenereEncGo_cons_other kb ki c rest hc',
        vigenereDecGo_cons_other kb ki c _ hc', ih]

/-- **C2.**  For every plaintext and every non-empty keyword of ASCII letters,
decrypting the encryption with the same keyword returns the plaintext exactly
(non-letters and letter casing included, since the result is the identical
character list). -/
theorem claim_C2 (p k : List ℕ) (hne : k ≠ [])
    (hall : ∀ c ∈ k, isAsciiAlpha c = true) :
    vigenere_decrypt (vigenere_encrypt p k) k = p := by
  have hg : (k.isEmpty || !(k.all isAsciiAlpha)) = false := by
    simp [List.isEmpty_iff, hne, List.all_eq_true.mpr hall]
  rw [vigenere_encrypt, vigenere_decrypt, hg]
  simp only [Bool.false_eq_true, if_false]
  exact vigenereGo_round_trip (k.map toUpper) p 0

/-- **C2 witness.**  The round trip at the plaintext `"Hello, World! 123"`
and keyword `"Key"`. -/
theorem claim_C2_witness :
    vigenere_decrypt
      (vigenere_encrypt
        [72, 101, 108, 108, 111, 44, 32, 87, 111, 114, 108, 100, 33, 32, 49, 50, 51]
        [75, 101, 121])
      [75, 101, 121]
    = [72, 101, 108, 108, 111, 44, 32, 87, 111, 114, 108, 100, 33, 32, 49, 50, 51] :=
  claim_C2 _ _ (by decide) (by decide)

/-! ### Claim C3: IC shift invariance -/

theorem letterIndex_lt26 {c : ℕ} (h : isAsciiAlpha c = true) : letterIndex c < 26 := by
  simp [isAsciiAlpha] at h
  unfold letterIndex toUpper
  split_ifs with hif
  · simp at hif
    omega
  · simp at hif
    omega

theorem letterIndex_upper {c : ℕ} (hb1 : 65 ≤ c) (hb2 : c ≤ 90) :
    letterIndex c = c - 65 := by
  unfold letterIndex toUpper
  split_ifs with hif
  · simp at hif
    omega
  · rfl

theorem letterIndex_lower {c : ℕ} (hb1 : 97 ≤ c) (hb2 : c ≤ 122) :
    letterIndex c = c - 97 := by
  unfold letterIndex toUpper
  split_ifs with hif
  · omega
  · simp at hif
    omega

/-- Shifting a letter rotates its alphabet index by `k` modulo 26. -/
theorem letterIndex_shift {c : ℕ} (h : isAsciiAlpha c = true) (k : ℤ) :
    letterIndex (shift_char c k) = (((letterIndex c : ℤ) + k) % 26).toNat := by
  by_cases hu : isAsciiUpper c = true
  · have hb : 65 ≤ c ∧ c ≤ 90 := by simpa [isAsciiUpper] using hu
    have h1 := emod26_nonneg ((c : ℤ) - 65 + k)
    have h2 := emod26_lt ((c : ℤ) - 65 + k)
    rw [shift_char_upper_eq h hu, letterIndex_upper (by omega) (by omega),
      letterIndex_upper hb.1 hb.2]
    omega
  · have hu' : isAsciiUpper c = false := by
      cases hh : isAsciiUpper c
      · rfl
      · exact absurd hh hu
    have hb : 97 ≤ c ∧ c ≤ 122 := by
      simp [isAsciiAlpha, isAsciiUpper] at h hu'
      omega
    have h1 := emod26_nonneg ((c : ℤ) - 97 + k)
    have h2 := emod26_lt ((c : ℤ) - 97 + k)
    rw [shift_char_lower_eq h hu', letterIndex_lower (by omega) (by omega),
      letterIndex_lower hb.1 hb.2]
    omega

/-- Filtering to letters commutes with Caesar shifting. -/
theorem alpha_filter_shift (t : List ℕ) (k : ℤ) :
    get_alphabetic_chars (shift_char_string t k)
      = shift_char_string (get_alphabetic_chars t) k := by
  unfold get_alphabetic_chars shift_char_string
  rw [List.filter_map]
  congr 1
  apply List.filter_congr
  intro c _
  by_cases hc : isAsciiAlpha c = true
  · simp [Function.comp, isAsciiAlpha_shift_char hc, hc]
  · have hc' : isAsciiAlpha c = false := by
      cases hh : isAsciiAlpha c
      · rfl
      · exact absurd hh hc
    simp [Function.comp, shift_char_of_not_alpha hc', hc']

/-- Shifting permutes the letter tallies: bucket `i` of the shifted text is
bucket `(i - k) mod 26` of the original. -/
theorem letterCounts_shift (l : List ℕ) (hall : ∀ c ∈ l, isAsciiAlpha c = true)
    (k : ℤ) (i : ℕ) (hi : i < 26) :
    letterCounts (shift_char_string l k) i
      = letterCounts l ((((i : ℤ) - k) % 26).toNat) := by
  unfold letterCounts shift_char_string
  rw [List.countP_map]
  apply List.countP_congr
  intro c hc
  have hrot := letterIndex_shift (hall c hc) k
  have hlt := letterIndex_lt26 (hall c hc)
  have h1 := emod26_nonneg ((letterIndex c : ℤ) + k)
  have h2 := emod26_lt ((letterIndex c : ℤ) + k)
  have h3 := emod26_nonneg ((i : ℤ) - k)
  have h4 := emod26_lt ((i : ℤ) - k)
  simp only [Function.comp, decide_eq_true_eq, hrot]
  omega

/-- **C3.**  For every text and every shift `k`, the index of coincidence of
the Caesar-shifted text equals that of the original text, as `Option` values:
both are `none` below two letters, and otherwise the two rationals are
identical. -/
theorem claim_C3 (t : List ℕ) (k : ℤ) :
    calculate_ic (shift_char_string t k) = calculate_ic t := by
  have ha := alpha_filter_shift t k
  simp only [calculate_ic, ha]
  rw [show (shift_char_string (get_alphabetic_chars t) k).length
      = (get_alphabetic_chars t).length from List.length_map _ _]
  by_cases h2 : (get_alphabetic_chars t).length < 2
  · rw [if_pos h2, if_pos h2]
  · rw [if_neg h2, if_neg h2]
    have hall : ∀ c ∈ get_alphabetic_chars t, isAsciiAlpha c = true :=
      fun c hc => (List.mem_filter.mp hc).2
    have hsum :
        ((List.finRange 26).map (fun i =>
          (letterCounts (shift_char_string (get_alphabetic_chars t) k) i.val : ℚ)
            * ((letterCounts (shift_char_string (get_alphabetic_chars t) k) i.val : ℚ) - 1))).sum
        = ((List.finRange 26).map (fun i =>
          (letterCounts (get_alphabetic_chars t) i.val : ℚ)
            * ((letterCounts (get_alphabetic_chars t) i.val : ℚ) - 1))).sum := by
      rw [← Fin.sum_univ_def, ← Fin.sum_univ_def]
      have hstep : ∀ i : Fin 26,
          (letterCounts (shift_char_string (get_alphabetic_chars t) k) i.val : ℚ)
            * ((letterCounts (shift_char_string (get_alphabetic_chars t) k) i.val : ℚ) - 1)
          = (letterCounts (get_alphabetic_chars t) ((rotEquiv k i).val) : ℚ)
            * ((letterCounts (get_alphabetic_chars t) ((rotEquiv k i).val) : ℚ) - 1) := by
        intro i
        rw [show (rotEquiv k i).val = (((i.val : ℤ) - k) % 26).toNat from rfl,
          letterCounts_shift (get_alphabetic_chars t) hall k i.val i.isLt]
      rw [Finset.sum_congr rfl (fun i _ => hstep i)]
      exact Equiv.sum_comp (rotEquiv k) (fun j =>
        (letterCounts (get_alphabetic_chars t) j.val : ℚ)
          * ((letterCounts (get_alphabetic_chars t) j.val : ℚ) - 1))
    rw [hsum]

/-! ### Claim C9: identification confidence bounds -/

theorem get_alpha_idem (t : List ℕ) :
    get_alphabetic_chars (get_alphabetic_chars t) = get_alphabetic_chars t := by
  unfold get_alphabetic_chars
  exact List.filter_eq_self.mpr (fun c hc => (List.mem_filter.mp hc).2)

theorem calculate_ic_alpha (t : List ℕ) :
    calculate_ic (get_alphabetic_chars t) = calculate_ic t := by
  unfold calculate_ic
  rw [get_alpha_idem]

/-- **C9.**  Whenever `run_vigenere_identification` returns a result, its
confidence score lies in `[0, 1]`, and a result is only produced when the
input's index of coincidence exists and is at most `ENGLISH_IC - 0.005`. -/
theorem claim_C9 (t : List ℕ) (min_text_len : ℕ) (r : IdentificationResult)
    (h : run_vigenere_identification t min_text_len = some r) :
    (0 ≤ r.confidence_score ∧ r.confidence_score ≤ 1) ∧
    ∃ ic, calculate_ic t = some ic ∧ ic ≤ ENGLISH_IC - 5/1000 := by
  simp only [run_vigenere_identification] at h
  split at h
  · exact absurd h (by simp)
  · split at h
    next heq => exact absurd h (by simp)
    next ic heq =>
      split at h
      next hgt => exact absurd h (by simp)
      next hgt =>
        simp only [Option.some_inj] at h
        subst h
        refine ⟨⟨?_, ?_⟩, ic, ?_, not_lt.mp hgt⟩
        · exact le_min (le_max_right _ 0) (by norm_num)
        · exact min_le_right _ 1
        · rw [← calculate_ic_alpha t]
          exact heq

/-- **C9 witness.**  On the eight-letter text `"ABCDEFGH"` with minimum length
`0`, identification succeeds with confidence exactly `1`. -/
theorem claim_C9_witness :
    (0 ≤ (IdentificationResult.mk "Vigenere" 1 []).confidence_score ∧
      (IdentificationResult.mk "Vigenere" 1 []).confidence_score ≤ 1) ∧
    ∃ ic, calculate_ic [65, 66, 67, 68, 69, 70, 71, 72] = some ic ∧
      ic ≤ ENGLISH_IC - 5/1000 := by
  have halpha : get_alphabetic_chars ([65, 66, 67, 68, 69, 70, 71, 72] : List ℕ)
      = [65, 66, 67, 68, 69, 70, 71, 72] := by decide
  have hle : ∀ i : Fin 26,
      letterCounts ([65, 66, 67, 68, 69, 70, 71, 72] : List ℕ) i.val ≤ 1 := by
    decide
  have hic0 : calculate_ic ([65, 66, 67, 68, 69, 70, 71, 72] : List ℕ) = some 0 := by
    simp only [calculate_ic, halpha]
    rw [if_neg (by decide)]
    have hzero : ((List.finRange 26).map (fun i =>
        (letterCounts ([65, 66, 67, 68, 69, 70, 71, 72] : List ℕ) i.val : ℚ)
          * ((letterCounts ([65, 66, 67, 68, 69, 70, 71, 72] : List ℕ) i.val : ℚ)
              - 1))).sum = 0 := by
      apply List.sum_eq_zero
      intro x hx
      rcases List.mem_map.mp hx with ⟨i, _, rfl⟩
      rcases Nat.le_one_iff_eq_zero_or_eq_one.mp (hle i) with h0 | h0 <;>
        rw [h0] <;> norm_num
    rw [hzero, zero_div]
  have hic : calculate_ic (get_alphabetic_chars
      ([65, 66, 67, 68, 69, 70, 71, 72] : List ℕ)) = some 0 := by
    rw [calculate_ic_alpha]
    exact hic0
  have hx : (1 : ℚ) ≤ (ENGLISH_IC - 0) / (ENGLISH_IC - RANDOM_IC) := by
    show (1 : ℚ) ≤ (667/10000 - 0) / (667/10000 - 1/26)
    norm_num
  have hest : estimate_key_lengths
      (get_alphabetic_chars ([65, 66, 67, 68, 69, 70, 71, 72] : List ℕ)) 3 20
      = [] := by
    decide
  have heval : run_vigenere_identification [65, 66, 67, 68, 69, 70, 71, 72] 0
      = some ⟨"Vigenere", 1, []⟩ := by
    unfold run_vigenere_identification
    rw [if_neg (by decide), hic]
    show (if ENGLISH_IC - 5/1000 < (0 : ℚ) then (none : Option IdentificationResult)
      else some (⟨"Vigenere",
        min (max ((ENGLISH_IC - 0) / (ENGLISH_IC - RANDOM_IC)) 0) 1,
        (estimate_key_lengths (get_alphabetic_chars
          ([65, 66, 67, 68, 69, 70, 71, 72] : List ℕ)) 3 20).take 5⟩ : IdentificationResult))
      = some (⟨"Vigenere", 1, []⟩ : IdentificationResult)
    rw [if_neg (by show ¬((667/10000 : ℚ) - 5/1000 < 0); norm_num), hest,
      max_eq_left (le_trans zero_le_one hx), min_eq_right hx]
    rfl
  exact claim_C9 [65, 66, 67, 68, 69, 70, 71, 72] 0 ⟨"Vigenere", 1, []⟩ heval

/-! ### Claim C7: decoder outputs are sorted best-first -/

/-- **C7.**  Every Caesar result list is in non-decreasing chi-squared score
order (lower is better first), and every Vigenère result list — for any MIC
ranking and any trigram scorer — is in non-increasing trigram score order
(higher is better first). -/
theorem claim_C7 :
    (∀ ciphertext : List ℕ,
      List.Pairwise (fun a b => a.score ≤ b.score) (run_caesar_decryption ciphertext)) ∧
    (∀ (mic : List ℕ → ℕ → Option (List ℕ)) (scoreFn : List ℕ → ℚ)
        (ciphertext : List ℕ) (min_text_len : ℕ),
      List.Pairwise (fun a b => b.score ≤ a.score)
        (run_vigenere_decryption mic scoreFn ciphertext min_text_len)) := by
  constructor
  · intro ct
    exact List.sorted_insertionSort caesarBefore _
  · intro mic scoreFn ct mlen
    by_cases h : (get_alphabetic_chars ct).length < mlen
    · rw [show run_vigenere_decryption mic scoreFn ct mlen = [] by
        unfold run_vigenere_decryption
        rw [if_pos h]]
      exact List.Pairwise.nil
    · rw [show run_vigenere_decryption mic scoreFn ct mlen
          = List.insertionSort vigenereBefore
            ((vigenereKeyLengthsToTry (get_alphabetic_chars ct)).foldl
              (vigenereTryLength mic scoreFn ct (get_alphabetic_chars ct)) []) by
        unfold run_vigenere_decryption
        rw [if_neg h]]
      exact List.sorted_insertionSort vigenereBefore _

/-! ### Claim C4: the Caesar sentinel row on alphabet-free input -/

theorem no_alpha_map_shift {t : List ℕ} (h : ∀ c ∈ t, isAsciiAlpha c = false)
    (z : ℤ) : t.map (fun c => shift_char c z) = t := by
  induction t with
  | nil => rfl
  | cons c rest ih =>
    rw [List.map_cons, shift_char_of_not_alpha (h c (List.mem_cons_self c rest)) z,
      ih (fun x hx => h x (List.mem_cons_of_mem c hx))]

theorem no_alpha_score_none {t : List ℕ} (h : ∀ c ∈ t, isAsciiAlpha c = false) :
    score_english_likelihood t = none := by
  have hcount : alphaCount t = 0 := by
    unfold alphaCount get_alphabetic_chars
    rw [List.filter_eq_nil_iff.mpr (fun c hc => by rw [h c hc]; exact Bool.false_ne_true)]
    rfl
  simp [score_english_likelihood, calculate_frequencies, hcount]

theorem not_isEmpty_of_ne_nil {α : Type} {l : List α} (h : l ≠ []) :
    (!l.isEmpty) = true := by
  cases hE : l.isEmpty
  · rfl
  · exact absurd (List.isEmpty_iff.mp hE) h

theorem isEmpty_ne_true_of_ne_nil {α : Type} {l : List α} (h : l ≠ []) :
    ¬(l.isEmpty = true) := fun hE => h (List.isEmpty_iff.mp hE)

/-- On alphabet-free input, a shift step with a nonempty accumulator changes
nothing. -/
theorem caesarStep_keeps {ct : List ℕ} (hno : ∀ c ∈ ct, isAsciiAlpha c = false)
    {attempts : List DecryptionAttempt} (hne : attempts ≠ []) (shift : ℕ) :
    caesarStep ct attempts shift = attempts := by
  simp only [caesarStep]
  rw [no_alpha_map_shift hno, no_alpha_score_none hno]
  simp [List.isEmpty_iff, hne]

/-- On nonempty alphabet-free input, the zero-shift step emits the sentinel
row. -/
theorem caesarStep_zero {ct : List ℕ} (hne : ct ≠ [])
    (hno : ∀ c ∈ ct, isAsciiAlpha c = false) :
    caesarStep ct [] 0 = [⟨"Caesar", [48], ct, f64MAX⟩] := by
  simp only [caesarStep]
  rw [no_alpha_map_shift hno, no_alpha_score_none hno]
  have hany : ct.any (fun c => !(isAsciiAlpha c)) = true := by
    rcases ct with _ | ⟨c, rest⟩
    · exact absurd rfl hne
    · simp [hno c (List.mem_cons_self c rest)]
  simp [List.isEmpty_iff, hne, hany, natKeyString]

theorem foldl_caesarStep_keeps {ct : List ℕ}
    (hno : ∀ c ∈ ct, isAsciiAlpha c = false)
    {attempts : List DecryptionAttempt} (hne : attempts ≠ []) (L : List ℕ) :
    L.foldl (caesarStep ct) attempts = attempts := by
  induction L with
  | nil => rfl
  | cons s rest ih => rw [List.foldl_cons, caesarStep_keeps hno hne s, ih]

/-- **C4 counterexample.**  The empty string contains no ASCII letters, yet
`run_caesar_decryption` returns no rows on it — refuting the claim that every
alphabet-free input yields at least one row. -/
theorem claim_C4_counterexample :
    (∀ c ∈ ([] : List ℕ), isAsciiAlpha c = false) ∧
    run_caesar_decryption [] = [] :=
  ⟨fun c hc => absurd hc (List.not_mem_nil c), by decide⟩

/-- **C4 (amended).**  For every *non-empty* input containing no ASCII
alphabetic characters, `run_caesar_decryption` returns exactly one row: the
zero-shift identity entry with key `"0"`, the input unchanged as plaintext,
and the maximum representable score. -/
theorem claim_C4 (t : List ℕ) (hne : t ≠ [])
    (hno : ∀ c ∈ t, isAsciiAlpha c = false) :
    run_caesar_decryption t = [⟨"Caesar", [48], t, f64MAX⟩] := by
  unfold run_caesar_decryption
  rw [show List.range 26 = 0 :: List.range' 1 25 by decide, List.foldl_cons,
    caesarStep_zero hne hno, foldl_caesarStep_keeps hno (by simp) _]
  rfl

/-- **C4 witness.**  The sentinel row on the input `"123 !@#"`. -/
theorem claim_C4_witness :
    run_caesar_decryption [49, 50, 51, 32, 33, 64, 35]
      = [⟨"Caesar", [48], [49, 50, 51, 32, 33, 64, 35], f64MAX⟩] :=
  claim_C4 _ (by decide) (by decide)

/-! ### Claim C1: candidate key-length selection -/

theorem multiCartesianProduct_length :
    ∀ (ls : List (List ℕ)) (comb : List ℕ),
      comb ∈ multiCartesianProduct ls → comb.length = ls.length := by
  intro ls
  induction ls with
  | nil =>
    intro comb h
    simp [multiCartesianProduct] at h
    rw [h]
    rfl
  | cons l rest ih =>
    intro comb h
    simp only [multiCartesianProduct, List.mem_flatMap, List.mem_map] at h
    rcases h with ⟨x, _, c, hc, rfl⟩
    simp [ih c hc]

theorem foldl_collect_none (mic : List ℕ → ℕ → Option (List ℕ)) (alpha : List ℕ)
    (key_len : ℕ) (L : List ℕ) :
    L.foldl (fun acc i => acc.bind (fun ls =>
      (mic (takeEvery key_len (alpha.drop i)) TOP_N_SHIFTS_PER_COLUMN).map
        (fun shifts => ls ++ [shifts]))) none = none := by
  induction L with
  | nil => rfl
  | cons i rest ih => rw [List.foldl_cons]; exact ih

theorem foldl_collect_length (mic : List ℕ → ℕ → Option (List ℕ)) (alpha : List ℕ)
    (key_len : ℕ) :
    ∀ (L : List ℕ) (acc ls : List (List ℕ)),
      L.foldl (fun acc i => acc.bind (fun ls =>
        (mic (takeEvery key_len (alpha.drop i)) TOP_N_SHIFTS_PER_COLUMN).map
          (fun shifts => ls ++ [shifts]))) (some acc) = some ls →
      ls.length = acc.length + L.length := by
  intro L
  induction L with
  | nil =>
    intro acc ls h
    simp only [List.foldl_nil, Option.some_inj] at h
    rw [← h, List.length_nil, Nat.add_zero]
  | cons i rest ih =>
    intro acc ls h
    rw [List.foldl_cons] at h
    cases hm : mic (takeEvery key_len (alpha.drop i)) TOP_N_SHIFTS_PER_COLUMN with
    | none =>
      rw [show ((some acc).bind (fun ls =>
          (mic (takeEvery key_len (alpha.drop i)) TOP_N_SHIFTS_PER_COLUMN).map
            (fun shifts => ls ++ [shifts]))) = none by simp [hm]] at h
      rw [foldl_collect_none mic alpha key_len rest] at h
      exact absurd h (by simp)
    | some shifts =>
      rw [show ((some acc).bind (fun ls =>
          (mic (takeEvery key_len (alpha.drop i)) TOP_N_SHIFTS_PER_COLUMN).map
            (fun shifts => ls ++ [shifts]))) = some (acc ++ [shifts]) by
          simp [hm]] at h
      have := ih (acc ++ [shifts]) ls h
      simp only [List.length_append, List.length_cons, List.length_nil] at this ⊢
      omega

theorem collectColumns_length (mic : List ℕ → ℕ → Option (List ℕ))
    (alpha : List ℕ) (key_len : ℕ) (ls : List (List ℕ))
    (h : collectColumns mic alpha key_len = some ls) : ls.length = key_len := by
  have := foldl_collect_length mic alpha key_len (List.range key_len) [] ls h
  simpa using this

/-- Membership in an append-style fold decomposes into the seed or one of the
per-element contributions. -/
theorem foldl_append_mem {α β : Type} (step : List β → α → List β)
    (g : α → List β) (hstep : ∀ acc x, step acc x = acc ++ g x) :
    ∀ (L : List α) (acc : List β) (a : β),
      a ∈ L.foldl step acc → a ∈ acc ∨ ∃ x ∈ L, a ∈ g x := by
  intro L
  induction L with
  | nil =>
    intro acc a h
    exact Or.inl h
  | cons x rest ih =>
    intro acc a h
    rw [List.foldl_cons, hstep] at h
    rcases ih (acc ++ g x) a h with hm | ⟨y, hy, hmy⟩
    · rcases List.mem_append.mp hm with hm | hm
      · exact Or.inl hm
      · exact Or.inr ⟨x, List.mem_cons_self x rest, hm⟩
    · exact Or.inr ⟨y, List.mem_cons_of_mem x hy, hmy⟩

/-- Any attempt added while trying one key length carries a keyword of exactly
that length. -/
theorem vigenereTryLength_mem (mic : List ℕ → ℕ → Option (List ℕ))
    (scoreFn : List ℕ → ℚ) (ciphertext alpha : List ℕ)
    (attempts : List DecryptionAttempt) (key_len : ℕ) (a : DecryptionAttempt)
    (h : a ∈ vigenereTryLength mic scoreFn ciphertext alpha attempts key_len) :
    a ∈ attempts ∨ a.key.length = key_len := by
  unfold vigenereTryLength at h
  by_cases h0 : key_len = 0
  · rw [if_pos h0] at h
    exact Or.inl h
  · rw [if_neg h0] at h
    cases hcc : collectColumns mic alpha key_len with
    | none =>
      rw [hcc] at h
      exact Or.inl h
    | some shiftLists =>
      rw [hcc] at h
      have hdec := foldl_append_mem
        (fun acc comb =>
          if (comb.map (fun shift => 65 + shift)).isEmpty then acc
          else acc ++ [⟨"Vigenere", comb.map (fun shift => 65 + shift),
            vigenere_decrypt ciphertext (comb.map (fun shift => 65 + shift)),
            scoreFn (vigenere_decrypt ciphertext
              (comb.map (fun shift => 65 + shift)))⟩])
        (fun comb =>
          if (comb.map (fun shift => 65 + shift)).isEmpty then []
          else [⟨"Vigenere", comb.map (fun shift => 65 + shift),
            vigenere_decrypt ciphertext (comb.map (fun shift => 65 + shift)),
            scoreFn (vigenere_decrypt ciphertext
              (comb.map (fun shift => 65 + shift)))⟩])
        (by
          intro acc x
          by_cases hx : (x.map (fun shift => 65 + shift)).isEmpty
          · simp [hx]
          · simp [hx])
        (multiCartesianProduct shiftLists) attempts a h
      rcases hdec with hm | ⟨comb, hcomb, hmem⟩
      · exact Or.inl hm
      · right
        dsimp only at hmem
        by_cases hx : (comb.map (fun shift => 65 + shift)).isEmpty
        · rw [if_pos hx] at hmem
          exact absurd hmem (List.not_mem_nil a)
        · rw [if_neg hx] at hmem
          rcases List.mem_singleton.mp hmem with rfl
          simp only [List.length_map]
          rw [multiCartesianProduct_length shiftLists comb hcomb]
          exact collectColumns_length mic alpha key_len shiftLists hcc

theorem vigenere_driver_mem (mic : List ℕ → ℕ → Option (List ℕ))
    (scoreFn : List ℕ → ℚ) (ciphertext alpha : List ℕ) :
    ∀ (klens : List ℕ) (acc : List DecryptionAttempt) (a : DecryptionAttempt),
      a ∈ klens.foldl (vigenereTryLength mic scoreFn ciphertext alpha) acc →
      a ∈ acc ∨ ∃ klen ∈ klens, a.key.length = klen := by
  intro klens
  induction klens with
  | nil =>
    intro acc a h
    exact Or.inl h
  | cons klen rest ih =>
    intro acc a h
    rw [List.foldl_cons] at h
    rcases ih _ a h with hm | ⟨k, hk, hak⟩
    · rcases vigenereTryLength_mem mic scoreFn ciphertext alpha acc klen a hm with
        hm2 | hm2
      · exact Or.inl hm2
      · exact Or.inr ⟨klen, List.mem_cons_self klen rest, hm2⟩
    · exact Or.inr ⟨k, List.mem_cons_of_mem klen hk, hak⟩

theorem keyLengths_le (alpha : List ℕ) :
    ∀ len ∈ vigenereKeyLengthsToTry alpha, len ≤ 15 := by
  intro len h
  unfold vigenereKeyLengthsToTry at h
  have := (List.mem_filter.mp h).2
  simpa [MAX_VIGENERE_KEY_LEN_TO_ATTEMPT] using this

/-- **C1 (amended).**  `run_vigenere_decryption` derives its candidate key
lengths from the Kasiski estimates alone: the top four Kasiski lengths when any
exist, else the fixed default set `[2,3,4,5,6,7]`; the candidates — and hence
every attempted keyword — are capped at length 15.  (The spec's preferred
IC-periodicity estimates are never consulted.) -/
theorem claim_C1 (text : List ℕ) :
    (estimate_key_lengths text 3 20 = [] →
      vigenereKeyLengthsToTry text = DEFAULT_KEY_LENGTHS_TO_TRY) ∧
    (estimate_key_lengths text 3 20 ≠ [] →
      vigenereKeyLengthsToTry text
        = (((estimate_key_lengths text 3 20).take 4).map Prod.fst).filter
            (fun len => len ≤ MAX_VIGENERE_KEY_LEN_TO_ATTEMPT)) ∧
    (∀ (mic : List ℕ → ℕ → Option (List ℕ)) (scoreFn : List ℕ → ℚ)
        (ciphertext : List ℕ) (min_text_len : ℕ) (a : DecryptionAttempt),
      a ∈ run_vigenere_decryption mic scoreFn ciphertext min_text_len →
      a.key.length ≤ 15) := by
  refine ⟨?_, ?_, ?_⟩
  · intro h
    simp only [vigenereKeyLengthsToTry]
    rw [h]
    decide
  · intro h
    simp only [vigenereKeyLengthsToTry]
    rw [if_neg (isEmpty_ne_true_of_ne_nil h)]
  · intro mic scoreFn ct mlen a ha
    unfold run_vigenere_decryption at ha
    by_cases hlen : (get_alphabetic_chars ct).length < mlen
    · rw [if_pos hlen] at ha
      exact absurd ha (List.not_mem_nil a)
    · rw [if_neg hlen] at ha
      have hmem := (List.perm_insertionSort vigenereBefore _).mem_iff.mp ha
      rcases vigenere_driver_mem mic scoreFn ct (get_alphabetic_chars ct)
          (vigenereKeyLengthsToTry (get_alphabetic_chars ct)) [] a hmem with
        hm | ⟨klen, hklen, hak⟩
      · exact absurd hm (List.not_mem_nil a)
      · rw [hak]
        exact keyLengths_le _ klen hklen

/-- **C1 witness.**  Both fallback branches at concrete inputs: on
`"ABCDEFGH"` Kasiski is empty and the defaults are used; on `"ABCABC"`
Kasiski is nonempty and its top lengths are used. -/
theorem claim_C1_witness :
    vigenereKeyLengthsToTry [65, 66, 67, 68, 69, 70, 71, 72] = [2, 3, 4, 5, 6, 7] ∧
    vigenereKeyLengthsToTry [65, 66, 67, 65, 66, 67]
      = (((estimate_key_lengths [65, 66, 67, 65, 66, 67] 3 20).take 4).map
          Prod.fst).filter (fun len => len ≤ MAX_VIGENERE_KEY_LEN_TO_ATTEMPT) :=
  ⟨(claim_C1 [65, 66, 67, 68, 69, 70, 71, 72]).1 (by decide),
   (claim_C1 [65, 66, 67, 65, 66, 67]).2.1 (by decide)⟩

/-- **C1 counterexample.**  On the eight-letter text `"ABCDEFGH"` the claimed
selection rule (prefer IC-periodicity, then Kasiski, then defaults) yields the
thirteen IC-ranked lengths filtered to the cap — a five-element list — while
the decoder actually uses the six default lengths: the two candidate lists
differ. -/
theorem claim_C1_counterexample :
    claimedKeyLengthsToTry [65, 66, 67, 68, 69, 70, 71, 72]
      ≠ vigenereKeyLengthsToTry [65, 66, 67, 68, 69, 70, 71, 72] ∧
    vigenereKeyLengthsToTry [65, 66, 67, 68, 69, 70, 71, 72]
      = [2, 3, 4, 5, 6, 7] := by
  have hcode : vigenereKeyLengthsToTry [65, 66, 67, 68, 69, 70, 71, 72]
      = [2, 3, 4, 5, 6, 7] := by decide
  refine ⟨?_, hcode⟩
  have hperm : (ic_periodicity_estimates [65, 66, 67, 68, 69, 70, 71, 72] 3 20).Perm
      (icScored [65, 66, 67, 68, 69, 70, 71, 72] 3 20) :=
    List.perm_insertionSort icCloser _
  have hmaplen : ((ic_periodicity_estimates [65, 66, 67, 68, 69, 70, 71, 72] 3 20).map
      Prod.fst).length
      = ((icScored [65, 66, 67, 68, 69, 70, 71, 72] 3 20).map Prod.fst).length :=
    (hperm.map Prod.fst).length_eq
  have hsclen : ((icScored [65, 66, 67, 68, 69, 70, 71, 72] 3 20).map Prod.fst).length
      = 5 := by decide
  have hne : ((ic_periodicity_estimates [65, 66, 67, 68, 69, 70, 71, 72] 3 20).map
      Prod.fst) ≠ [] := by
    intro hnil
    rw [hnil] at hmaplen
    rw [hsclen] at hmaplen
    exact absurd hmaplen.symm (by norm_num)
  have hfiltlen : (((ic_periodicity_estimates [65, 66, 67, 68, 69, 70, 71, 72] 3 20).map
      Prod.fst).filter (fun len => decide (len ≤ MAX_VIGENERE_KEY_LEN_TO_ATTEMPT))).length
      = 5 := by
    rw [((hperm.map Prod.fst).filter _).length_eq]
    decide
  have hclaimlen : (claimedKeyLengthsToTry [65, 66, 67, 68, 69, 70, 71, 72]).length
      = 5 := by
    simp only [claimedKeyLengthsToTry]
    rw [if_pos (not_isEmpty_of_ne_nil hne)]
    exact hfiltlen
  intro heq
  rw [heq, hcode] at hclaimlen
  exact absurd hclaimlen (by norm_num)

/-! ### Claim C5: occurrence-position machinery -/

theorem seqAt_length {t : List ℕ} {len i : ℕ} (h : i + len ≤ t.length) :
    (seqAt t len i).length = len := by
  simp [seqAt]
  omega

theorem mem_occurrencesOf {t s : List ℕ} {i : ℕ} :
    i ∈ occurrencesOf t s ↔ i + s.length ≤ t.length ∧ seqAt t s.length i = s := by
  unfold occurrencesOf
  rw [List.mem_filter, List.mem_range]
  constructor
  · rintro ⟨hr, hs⟩
    exact ⟨by omega, of_decide_eq_true hs⟩
  · rintro ⟨hb, hs⟩
    exact ⟨by omega, decide_eq_true hs⟩

theorem occurrencesOf_sorted (t s : List ℕ) :
    List.Pairwise (· < ·) (occurrencesOf t s) :=
  List.Pairwise.sublist (List.filter_sublist _) (List.pairwise_lt_range _)

theorem occurrencesOf_nodup (t s : List ℕ) : (occurrencesOf t s).Nodup :=
  (occurrencesOf_sorted t s).imp (fun h => Nat.ne_of_lt h)

theorem occurrencesOf_lt {t s : List ℕ} {j : ℕ} (h : j ∈ occurrencesOf t s) :
    j < t.length + 1 - s.length := by
  unfold occurrencesOf at h
  rw [List.mem_filter, List.mem_range] at h
  exact h.1

theorem head?_min {t s : List ℕ} {h0 : ℕ}
    (hh : (occurrencesOf t s).head? = some h0) :
    h0 ∈ occurrencesOf t s ∧ ∀ j ∈ occurrencesOf t s, h0 ≤ j := by
  have hs := occurrencesOf_sorted t s
  cases hocc : occurrencesOf t s with
  | nil =>
    rw [hocc] at hh
    exact absurd hh (by simp)
  | cons a rest =>
    rw [hocc] at hh hs
    simp only [List.head?_cons, Option.some_inj] at hh
    subst hh
    refine ⟨List.mem_cons_self _ _, ?_⟩
    intro j hj
    rcases List.mem_cons.mp hj with rfl | hj
    · exact le_refl j
    · exact le_of_lt ((List.pairwise_cons.mp hs).1 j hj)

theorem two_mem_le_length {α : Type} {l : List α} {a b : α}
    (ha : a ∈ l) (hb : b ∈ l) (hab : a ≠ b) : 2 ≤ l.length := by
  cases l with
  | nil => simp at ha
  | cons x rest =>
    cases rest with
    | nil =>
      simp at ha hb
      rw [ha, hb] at hab
      exact absurd rfl hab
    | cons y r2 =>
      simp [List.length_cons]

theorem sorted_filter_succ {l : List ℕ} (h : List.Pairwise (· < ·) l) (K : ℕ) :
    l.filter (fun i => decide (i < K + 1))
      = l.filter (fun i => decide (i < K)) ++ l.filter (fun i => decide (i = K)) := by
  induction l with
  | nil => rfl
  | cons x rest ih =>
    have hx := (List.pairwise_cons.mp h).1
    have hrest := (List.pairwise_cons.mp h).2
    by_cases h1 : x < K
    · have c1 : decide (x < K + 1) = true := decide_eq_true (by omega)
      have c2 : decide (x < K) = true := decide_eq_true h1
      have c3 : decide (x = K) = false := decide_eq_false (by omega)
      simp [List.filter_cons, c1, c2, c3, ih hrest]
    · by_cases h2 : x = K
      · subst h2
        have hlt1 : rest.filter (fun i => decide (i < x + 1)) = [] :=
          List.filter_eq_nil_iff.mpr (fun a ha => by
            have := hx a ha
            simp
            omega)
        have hlt2 : rest.filter (fun i => decide (i < x)) = [] :=
          List.filter_eq_nil_iff.mpr (fun a ha => by
            have := hx a ha
            simp
            omega)
        have heq2 : rest.filter (fun i => decide (i = x)) = [] :=
          List.filter_eq_nil_iff.mpr (fun a ha => by
            have := hx a ha
            simp
            omega)
        have c1 : decide (x < x + 1) = true := decide_eq_true (by omega)
        have c2 : decide (x < x) = false := decide_eq_false (by omega)
        simp [List.filter_cons, c1, c2, hlt1, hlt2, heq2]
      · have c1 : decide (x < K + 1) = false := decide_eq_false (by omega)
        have c2 : decide (x < K) = false := decide_eq_false h1
        have c3 : decide (x = K) = false := decide_eq_false h2
        simp [List.filter_cons, c1, c2, c3, ih hrest]

theorem filter_eq_singleton_of_mem {l : List ℕ} (h : l.Nodup) {K : ℕ}
    (hm : K ∈ l) : l.filter (fun i => decide (i = K)) = [K] := by
  induction l with
  | nil => simp at hm
  | cons x rest ih =>
    have hx := (List.nodup_cons.mp h).1
    have hrest := (List.nodup_cons.mp h).2
    by_cases hxK : x = K
    · subst hxK
      have : rest.filter (fun i => decide (i = x)) = [] :=
        List.filter_eq_nil_iff.mpr (fun a ha => by
          simp
          intro hax
          rw [hax] at ha
          exact hx ha)
      simp [List.filter_cons, this]
    · have hKr : K ∈ rest := by
        rcases List.mem_cons.mp hm with rfl | hr
        · exact absurd rfl hxK
        · exact hr
      simp only [List.filter_cons, decide_eq_false hxK, if_false]
      exact ih hrest hKr

theorem filter_eq_nil_of_not_mem {l : List ℕ} {K : ℕ} (hm : K ∉ l) :
    l.filter (fun i => decide (i = K)) = [] :=
  List.filter_eq_nil_iff.mpr (fun a ha => by
    simp
    intro hax
    rw [hax] at ha
    exact hm ha)

theorem hasKey_iff {m : List (List ℕ × List ℕ)} {s : List ℕ} :
    hasKey m s = true ↔ ∃ ps, (s, ps) ∈ m := by
  unfold hasKey
  rw [List.any_eq_true]
  constructor
  · rintro ⟨e, he, hdec⟩
    have h1 := of_decide_eq_true hdec
    exact ⟨e.2, by rw [← h1, Prod.mk.eta]; exact he⟩
  · rintro ⟨ps, hps⟩
    exact ⟨(s, ps), hps, decide_eq_true rfl⟩

theorem partialOcc_succ (t s : List ℕ) (K : ℕ) :
    partialOcc t s (K + 1)
      = partialOcc t s K ++ (if K ∈ occurrencesOf t s then [K] else []) := by
  unfold partialOcc
  rw [sorted_filter_succ (occurrencesOf_sorted t s) K]
  congr 1
  by_cases hK : K ∈ occurrencesOf t s
  · rw [filter_eq_singleton_of_mem (occurrencesOf_nodup t s) hK, if_pos hK]
  · rw [filter_eq_nil_of_not_mem hK, if_neg hK]

/-- Characterization of the substrings recorded by the scan: exactly the
length-`len` substrings with at least two occurrences whose first occurrence
lies before `K`. -/
theorem mem_newKeys_iff {t : List ℕ} {len K : ℕ} (hK : K + len ≤ t.length + 1)
    {s : List ℕ} :
    s ∈ newKeys t len K
      ↔ s.length = len ∧ 2 ≤ (occurrencesOf t s).length ∧
        ∃ h0, (occurrencesOf t s).head? = some h0 ∧ h0 < K := by
  unfold newKeys
  rw [List.mem_map]
  constructor
  · rintro ⟨i, hi, rfl⟩
    rw [List.mem_filter, List.mem_range] at hi
    obtain ⟨hiK, hnew⟩ := hi
    unfold isNewRepeat at hnew
    rw [Bool.and_eq_true] at hnew
    have hhead := of_decide_eq_true hnew.1
    have h2 := of_decide_eq_true hnew.2
    exact ⟨seqAt_length (by omega), h2, i, hhead, hiK⟩
  · rintro ⟨hslen, h2, h0, hh, hK0⟩
    have hmem := (head?_min hh).1
    have hb := mem_occurrencesOf.mp hmem
    have hseq : seqAt t len h0 = s := by
      rw [← hslen]
      exact hb.2
    refine ⟨h0, ?_, hseq⟩
    rw [List.mem_filter, List.mem_range]
    refine ⟨hK0, ?_⟩
    unfold isNewRepeat
    rw [Bool.and_eq_true]
    exact ⟨decide_eq_true (by rw [hseq]; exact hh),
           decide_eq_true (by rw [hseq]; exact h2)⟩

theorem newKeys_nodup (t : List ℕ) (len K : ℕ) : (newKeys t len K).Nodup := by
  unfold newKeys
  apply List.Nodup.map_on
  · intro x hx y hy hxy
    rw [List.mem_filter] at hx hy
    have hx2 := hx.2
    have hy2 := hy.2
    unfold isNewRepeat at hx2 hy2
    rw [Bool.and_eq_true] at hx2 hy2
    have hhx := of_decide_eq_true hx2.1
    have hhy := of_decide_eq_true hy2.1
    rw [hxy] at hhx
    rw [hhx] at hhy
    exact Option.some_inj.mp hhy
  · exact (List.nodup_range K).filter _

theorem mem_newKeys_length {t : List ℕ} {len K : ℕ} (hK : K + len ≤ t.length + 1)
    {s : List ℕ} (h : s ∈ newKeys t len K) : s.length = len :=
  ((mem_newKeys_iff hK).mp h).1

theorem mem_newKeys_repeated {t : List ℕ} {len K : ℕ} (hK : K + len ≤ t.length + 1)
    {s : List ℕ} (h : s ∈ newKeys t len K) : 2 ≤ (occurrencesOf t s).length :=
  ((mem_newKeys_iff hK).mp h).2.1

theorem newKeys_succ_of_false {t : List ℕ} {len K : ℕ}
    (hnr : isNewRepeat t len K = false) :
    newKeys t len (K + 1) = newKeys t len K := by
  unfold newKeys
  rw [List.range_succ, List.filter_append,
    show List.filter (isNewRepeat t len) [K] = [] by simp [hnr],
    List.append_nil]

theorem newKeys_succ_of_true {t : List ℕ} {len K : ℕ}
    (hnr : isNewRepeat t len K = true) :
    newKeys t len (K + 1) = newKeys t len K ++ [seqAt t len K] := by
  unfold newKeys
  rw [List.range_succ, List.filter_append,
    show List.filter (isNewRepeat t len) [K] = [K] by simp [hnr],
    List.map_append]
  rfl

/-- The key step of the scan invariant: processing position `K` turns the
entries for the first `K` positions into the entries for the first `K+1`
positions, leaving the frame `m` (whose keys have a different length)
untouched. -/
theorem scanStep_entries (t : List ℕ) (len K : ℕ) (hK : K + len ≤ t.length)
    (m : List (List ℕ × List ℕ)) (hm : ∀ e ∈ m, e.1.length ≠ len) :
    scanStep t len (m ++ scanEntries t len K) K = m ++ scanEntries t len (K + 1) := by
  have hK1 : K + len ≤ t.length + 1 := by omega
  have hslen : (seqAt t len K).length = len := seqAt_length hK
  have hKocc : K ∈ occurrencesOf t (seqAt t len K) :=
    mem_occurrencesOf.mpr ⟨by rw [hslen]; omega, by rw [hslen]⟩
  by_cases hkey : hasKey (m ++ scanEntries t len K) (seqAt t len K) = true
  · -- the substring is already recorded: push position K onto its entry
    obtain ⟨ps, hps⟩ := hasKey_iff.mp hkey
    have hsK : seqAt t len K ∈ newKeys t len K := by
      rcases List.mem_append.mp hps with hmm | hE
      · exact absurd hslen (hm _ hmm)
      · unfold scanEntries at hE
        rcases List.mem_map.mp hE with ⟨sp, hsp, heq⟩
        have hfst : sp = seqAt t len K := by
          have := congrArg Prod.fst heq
          simpa using this
        rw [← hfst]
        exact hsp
    obtain ⟨_, h2occ, h0, hh0, h0K⟩ := (mem_newKeys_iff hK1).mp hsK
    have hnrK : isNewRepeat t len K = false := by
      unfold isNewRepeat
      rw [show decide ((occurrencesOf t (seqAt t len K)).head? = some K) = false by
        apply decide_eq_false
        rw [hh0]
        intro hcon
        have := Option.some_inj.mp hcon
        omega]
      rw [Bool.false_and]
    have hnewK := newKeys_succ_of_false hnrK
    have hKmem : ∀ s' ∈ newKeys t len K,
        (K ∈ occurrencesOf t s' ↔ s' = seqAt t len K) := by
      intro s' hs'
      constructor
      · intro hk
        have hb := mem_occurrencesOf.mp hk
        have hl := mem_newKeys_length hK1 hs'
        rw [← hb.2, hl]
      · intro he
        rw [he]
        exact hKocc
    simp only [scanStep]
    rw [if_pos hkey]
    unfold pushPosition
    rw [List.map_append]
    have hmid : List.map
        (fun e => if e.1 = seqAt t len K then (e.1, e.2 ++ [K]) else e) m = m := by
      have h1 : ∀ e ∈ m,
          (if e.1 = seqAt t len K then (e.1, e.2 ++ [K]) else e) = e := by
        intro e he
        rw [if_neg]
        intro hcon
        exact hm e he (by rw [hcon, hslen])
      exact (List.map_congr_left h1).trans (List.map_id m)
    rw [hmid]
    congr 1
    unfold scanEntries
    rw [hnewK, List.map_map]
    apply List.map_congr_left
    intro sp hsp
    simp only [Function.comp_apply]
    by_cases he : sp = seqAt t len K
    · rw [if_pos he, partialOcc_succ, if_pos ((hKmem sp hsp).mpr he)]
    · rw [if_neg he, partialOcc_succ,
        if_neg (fun hk => he ((hKmem sp hsp).mp hk)), List.append_nil]
  · -- the substring is not yet recorded
    have hsnotK : seqAt t len K ∉ newKeys t len K := by
      intro hs
      exact hkey (hasKey_iff.mpr ⟨partialOcc t (seqAt t len K) K,
        List.mem_append_right _ (List.mem_map.mpr ⟨_, hs, rfl⟩)⟩)
    have hother : ∀ s' ∈ newKeys t len K,
        partialOcc t s' (K + 1) = partialOcc t s' K := by
      intro s' hs'
      rw [partialOcc_succ, if_neg, List.append_nil]
      intro hk
      have hb := mem_occurrencesOf.mp hk
      have hl := mem_newKeys_length hK1 hs'
      apply hsnotK
      rw [show seqAt t len K = s' by rw [← hb.2, hl]]
      exact hs'
    by_cases hrec : (occurrencesOf t (seqAt t len K)).any
        (fun j => decide (K < j)) = true
    · -- a later occurrence exists: record (seqAt t len K, [K])
      obtain ⟨j, hj, hKj'⟩ := List.any_eq_true.mp hrec
      have hKj : K < j := of_decide_eq_true hKj'
      have hno_lt : ∀ j0 ∈ occurrencesOf t (seqAt t len K), ¬ j0 < K := by
        intro j0 hj0 hlt
        apply hsnotK
        rw [mem_newKeys_iff hK1]
        refine ⟨hslen, two_mem_le_length hKocc hj (by omega), ?_⟩
        cases hh : (occurrencesOf t (seqAt t len K)).head? with
        | none =>
          rw [List.head?_eq_none_iff] at hh
          rw [hh] at hj0
          exact absurd hj0 (List.not_mem_nil _)
        | some h0 =>
          refine ⟨h0, rfl, ?_⟩
          have := (head?_min hh).2 j0 hj0
          omega
      have hhead : (occurrencesOf t (seqAt t len K)).head? = some K := by
        cases hh : (occurrencesOf t (seqAt t len K)).head? with
        | none =>
          rw [List.head?_eq_none_iff] at hh
          rw [hh] at hKocc
          exact absurd hKocc (List.not_mem_nil _)
        | some h0 =>
          have h1 := (head?_min hh).1
          have h2 := (head?_min hh).2 K hKocc
          have h3 := hno_lt h0 h1
          rw [show h0 = K by omega]
      have hnr : isNewRepeat t len K = true := by
        unfold isNewRepeat
        rw [Bool.and_eq_true]
        exact ⟨decide_eq_true hhead,
               decide_eq_true (two_mem_le_length hKocc hj (by omega))⟩
      have hnewK := newKeys_succ_of_true hnr
      have hpsnil : partialOcc t (seqAt t len K) K = [] := by
        unfold partialOcc
        exact List.filter_eq_nil_iff.mpr (fun a ha => by
          simp only [decide_eq_true_eq]
          exact hno_lt a ha)
      have hpsK : partialOcc t (seqAt t len K) (K + 1) = [K] := by
        rw [partialOcc_succ, if_pos hKocc, hpsnil, List.nil_append]
      simp only [scanStep]
      rw [if_neg hkey, if_pos hrec, List.append_assoc]
      congr 1
      unfold scanEntries
      rw [hnewK, List.map_append]
      congr 1
      · exact List.map_congr_left (fun sp hsp => by rw [hother sp hsp])
      · rw [List.map_singleton, hpsK]
    · -- no later occurrence: nothing changes
      have hnr : isNewRepeat t len K = false := by
        cases hb : isNewRepeat t len K
        · rfl
        · exfalso
          unfold isNewRepeat at hb
          rw [Bool.and_eq_true] at hb
          have hh := of_decide_eq_true hb.1
          have h2 := of_decide_eq_true hb.2
          cases hocc : occurrencesOf t (seqAt t len K) with
          | nil =>
            rw [hocc] at hh
            simp at hh
          | cons a rest =>
            rw [hocc] at hh h2
            simp only [List.head?_cons, Option.some_inj] at hh
            cases rest with
            | nil => simp at h2
            | cons b r2 =>
              have hsorted := occurrencesOf_sorted t (seqAt t len K)
              rw [hocc] at hsorted
              have hab : a < b :=
                (List.pairwise_cons.mp hsorted).1 b (List.mem_cons_self b r2)
              apply hrec
              rw [List.any_eq_true]
              refine ⟨b, ?_, decide_eq_true (by omega)⟩
              rw [hocc]
              exact List.mem_cons_of_mem a (List.mem_cons_self b r2)
      have hnewK := newKeys_succ_of_false hnr
      simp only [scanStep]
      rw [if_neg hkey, if_neg hrec]
      congr 1
      unfold scanEntries
      rw [hnewK]
      exact List.map_congr_left (fun sp hsp => by rw [hother sp hsp])

theorem scan_foldl (t : List ℕ) (len : ℕ)
    (m : List (List ℕ × List ℕ)) (hm : ∀ e ∈ m, e.1.length ≠ len) :
    ∀ K, K + len ≤ t.length + 1 →
      (List.range K).foldl (scanStep t len) m = m ++ scanEntries t len K := by
  intro K
  induction K with
  | zero =>
    intro _
    simp [scanEntries, newKeys]
  | succ K ih =>
    intro hK
    rw [List.range_succ, List.foldl_append, ih (by omega), List.foldl_cons,
      List.foldl_nil]
    exact scanStep_entries t len K (by omega) m hm

theorem scanEntries_full (t : List ℕ) (len : ℕ) (hlen : len ≤ t.length) :
    scanEntries t len (t.length + 1 - len)
      = (newKeys t len (t.length + 1 - len)).map (fun s => (s, occurrencesOf t s)) := by
  unfold scanEntries
  apply List.map_congr_left
  intro s hs
  have hl := mem_newKeys_length (by omega) hs
  have hocc : partialOcc t s (t.length + 1 - len) = occurrencesOf t s := by
    unfold partialOcc
    apply List.filter_eq_self.mpr
    intro j hj
    have hjlt := occurrencesOf_lt hj
    rw [hl] at hjlt
    exact decide_eq_true hjlt
  rw [hocc]

theorem scanLen_eq (t : List ℕ) (len : ℕ) (hlen : len ≤ t.length)
    (m : List (List ℕ × List ℕ)) (hm : ∀ e ∈ m, e.1.length ≠ len) :
    scanLen t m len
      = m ++ (newKeys t len (t.length + 1 - len)).map
          (fun s => (s, occurrencesOf t s)) := by
  unfold scanLen
  rw [scan_foldl t len m hm (t.length + 1 - len) (by omega),
    scanEntries_full t len hlen]

theorem buildSequences_foldl (t : List ℕ) :
    ∀ (lens : List ℕ), lens.Nodup → (∀ len ∈ lens, len ≤ t.length) →
    ∀ m : List (List ℕ × List ℕ), (∀ e ∈ m, e.1.length ∉ lens) →
      lens.foldl (scanLen t) m = m ++ allEntries t lens := by
  intro lens
  induction lens with
  | nil =>
    intro _ _ m _
    simp [allEntries]
  | cons len rest ih =>
    intro hnodup hle m hm
    have hlent : len ≤ t.length := hle len (List.mem_cons_self len rest)
    have hframe : ∀ e ∈ m ++ (newKeys t len (t.length + 1 - len)).map
        (fun s => (s, occurrencesOf t s)), e.1.length ∉ rest := by
      intro e he
      rcases List.mem_append.mp he with hem | hen
      · intro hcon
        exact hm e hem (List.mem_cons_of_mem len hcon)
      · rcases List.mem_map.mp hen with ⟨s, hs, rfl⟩
        have hl := @mem_newKeys_length t len (t.length + 1 - len) (by omega) _ hs
        simp only []
        rw [hl]
        exact (List.nodup_cons.mp hnodup).1
    rw [List.foldl_cons,
      scanLen_eq t len hlent m
        (fun e he hcon => hm e he (hcon ▸ List.mem_cons_self len rest)),
      ih (List.nodup_cons.mp hnodup).2
        (fun l hl => hle l (List.mem_cons_of_mem len hl))
        _ hframe,
      List.append_assoc]
    congr 1

theorem buildSequences_eq (t : List ℕ) (minLen maxLen : ℕ) :
    buildSequences t minLen maxLen
      = allEntries t (lensDesc minLen (min maxLen (t.length / 2))) := by
  unfold buildSequences
  rw [buildSequences_foldl t _ ?_ ?_ [] (by simp)]
  · rw [List.nil_append]
  · unfold lensDesc
    exact List.nodup_reverse.mpr (List.nodup_range' _ _)
  · intro len hlen
    unfold lensDesc at hlen
    rw [List.mem_reverse, List.mem_range'_1] at hlen
    have h1 : len ≤ min maxLen (t.length / 2) := by omega
    have h2 : min maxLen (t.length / 2) ≤ t.length / 2 := min_le_right _ _
    have h3 : t.length / 2 ≤ t.length := Nat.div_le_self _ _
    omega

theorem lensDesc_le (u : List ℕ) (minLen maxLen : ℕ) :
    ∀ len ∈ lensDesc minLen (min maxLen (u.length / 2)), len ≤ u.length := by
  intro len hlen
  unfold lensDesc at hlen
  rw [List.mem_reverse, List.mem_range'_1] at hlen
  have h1 : len ≤ min maxLen (u.length / 2) := by omega
  have h2 : min maxLen (u.length / 2) ≤ u.length / 2 := min_le_right _ _
  have h3 : u.length / 2 ≤ u.length := Nat.div_le_self _ _
  omega

/-! ### Claim C5: vote counting -/

theorem pairsOf_lt {l : List ℕ} (h : List.Pairwise (· < ·) l) :
    ∀ p ∈ pairsOf l, p.1 < p.2 := by
  induction l with
  | nil =>
    intro p hp
    simp [pairsOf] at hp
  | cons x rest ih =>
    intro p hp
    unfold pairsOf at hp
    rcases List.mem_append.mp hp with hm | hm
    · rcases List.mem_map.mp hm with ⟨y, hy, rfl⟩
      exact (List.pairwise_cons.mp h).1 y hy
    · exact ih (List.pairwise_cons.mp h).2 p hm

theorem count_filter_eq (p : ℕ → Bool) (a : ℕ) (l : List ℕ) :
    (l.filter p).count a = if p a = true then l.count a else 0 := by
  by_cases hp : p a = true
  · rw [if_pos hp, List.count_filter hp]
  · rw [if_neg hp, List.count_eq_zero]
    intro hmem
    exact hp (List.mem_filter.mp hmem).2

theorem count_nodup_ite {a : ℕ} {l : List ℕ} (h : l.Nodup) :
    l.count a = if a ∈ l then 1 else 0 := by
  by_cases hm : a ∈ l
  · rw [if_pos hm, List.count_eq_one_of_mem h hm]
  · rw [if_neg hm, List.count_eq_zero.mpr hm]

theorem mem_find_factors {d f : ℕ} : f ∈ find_factors d ↔ d ≠ 0 ∧ f ∣ d := by
  unfold find_factors
  by_cases hd : d = 0
  · simp [hd]
  · rw [if_neg hd, List.mem_filter, List.mem_range]
    constructor
    · rintro ⟨_, hdvd⟩
      exact ⟨hd, of_decide_eq_true hdvd⟩
    · rintro ⟨_, hdvd⟩
      refine ⟨?_, decide_eq_true hdvd⟩
      have := Nat.le_of_dvd (Nat.pos_of_ne_zero hd) hdvd
      omega

theorem find_factors_nodup (n : ℕ) : (find_factors n).Nodup := by
  unfold find_factors
  split_ifs
  · exact List.nodup_nil
  · exact (List.nodup_range _).filter _

theorem sum_map_ite_countP (l : List (ℕ × ℕ)) (p : (ℕ × ℕ) → Bool) :
    (l.map (fun a => if p a = true then 1 else 0)).sum = l.countP p := by
  induction l with
  | nil => rfl
  | cons x rest ih =>
    rw [List.map_cons, List.sum_cons, ih, List.countP_cons]
    by_cases hx : p x = true
    · simp [hx, Nat.add_comm]
    · simp [hx]

/-- The votes one recorded entry casts for a factor `f`: one per pairwise
distance that `f` divides, provided `f` is in range, and none otherwise. -/
theorem entryVotes_count (maxLen f : ℕ) (s ps : List ℕ)
    (hsorted : List.Pairwise (· < ·) ps) (h2 : 2 ≤ ps.length) :
    (entryVotes maxLen (s, ps)).count f
      = if 1 < f ∧ f ≤ maxLen then
          (pairsOf ps).countP (fun p => decide (f ∣ (p.2 - p.1)))
        else 0 := by
  unfold entryVotes
  rw [if_pos (show 1 < (s, ps).2.length from by simpa using h2)]
  rw [List.count_flatMap]
  by_cases hg : 1 < f ∧ f ≤ maxLen
  · rw [if_pos hg, ← sum_map_ite_countP]
    congr 1
    apply List.map_congr_left
    intro p hp
    have hlt := pairsOf_lt hsorted p hp
    simp only [Function.comp_apply]
    rw [count_filter_eq]
    have hguard : factorGuard maxLen f = true := by
      unfold factorGuard
      rw [Bool.and_eq_true]
      exact ⟨decide_eq_true hg.1, decide_eq_true hg.2⟩
    rw [if_pos hguard, count_nodup_ite (find_factors_nodup _)]
    by_cases hdvd : f ∣ (p.2 - p.1)
    · rw [if_pos (mem_find_factors.mpr ⟨by omega, hdvd⟩),
        if_pos (decide_eq_true hdvd)]
    · rw [if_neg (fun hmem => hdvd (mem_find_factors.mp hmem).2),
        if_neg (by simpa using hdvd)]
  · rw [if_neg hg]
    apply List.sum_eq_zero
    intro x hx
    rcases List.mem_map.mp hx with ⟨p, hp, rfl⟩
    simp only [Function.comp_apply]
    rw [count_filter_eq, if_neg]
    unfold factorGuard
    rw [Bool.and_eq_true]
    rintro ⟨ha, hb⟩
    exact hg ⟨of_decide_eq_true ha, of_decide_eq_true hb⟩

theorem mem_repeatedSubstrings_iff {u : List ℕ} {len : ℕ} {s : List ℕ} :
    s ∈ repeatedSubstrings u len
      ↔ (∃ i, i < u.length + 1 - len ∧ seqAt u len i = s) ∧
        2 ≤ (occurrencesOf u s).length := by
  unfold repeatedSubstrings
  rw [List.mem_filter, List.mem_dedup, List.mem_map]
  constructor
  · rintro ⟨⟨i, hi, rfl⟩, hdec⟩
    exact ⟨⟨i, List.mem_range.mp hi, rfl⟩, of_decide_eq_true hdec⟩
  · rintro ⟨⟨i, hi, rfl⟩, h2⟩
    exact ⟨⟨i, List.mem_range.mpr hi, rfl⟩, decide_eq_true h2⟩

theorem repeatedSubstrings_nodup (u : List ℕ) (len : ℕ) :
    (repeatedSubstrings u len).Nodup :=
  (List.nodup_dedup _).filter _

/-- The substrings the scan records for a length are exactly the repeated
substrings of that length, up to order. -/
theorem newKeys_perm_repeated (u : List ℕ) (len : ℕ) (hlen : len ≤ u.length) :
    (newKeys u len (u.length + 1 - len)).Perm (repeatedSubstrings u len) := by
  apply List.perm_of_nodup_nodup_toFinset_eq (newKeys_nodup u len _)
    (repeatedSubstrings_nodup u len)
  apply Finset.ext
  intro s
  rw [List.mem_toFinset, List.mem_toFinset, mem_newKeys_iff (by omega),
    mem_repeatedSubstrings_iff]
  constructor
  · rintro ⟨hslen, h2, h0, hh0, h0K⟩
    have hmem := (head?_min hh0).1
    have hb := mem_occurrencesOf.mp hmem
    refine ⟨⟨h0, ?_, ?_⟩, h2⟩
    · have := occurrencesOf_lt hmem
      rw [hslen] at this
      exact this
    · rw [← hslen]
      exact hb.2
  · rintro ⟨⟨i, hi, rfl⟩, h2⟩
    have hslen : (seqAt u len i).length = len := seqAt_length (by omega)
    have hiocc : i ∈ occurrencesOf u (seqAt u len i) :=
      mem_occurrencesOf.mpr ⟨by rw [hslen]; omega, by rw [hslen]⟩
    refine ⟨hslen, h2, ?_⟩
    cases hh : (occurrencesOf u (seqAt u len i)).head? with
    | none =>
      rw [List.head?_eq_none_iff] at hh
      rw [hh] at hiocc
      exact absurd hiocc (List.not_mem_nil _)
    | some h0 =>
      refine ⟨h0, rfl, ?_⟩
      have hle := (head?_min hh).2 i hiocc
      omega

/-- The multiset of factor votes cast by the whole scan, counted at `f`. -/
theorem voteList_count (u : List ℕ) (minl maxl f : ℕ) :
    (voteList u minl maxl).count f
      = if 1 < f ∧ f ≤ maxl then
          ((lensDesc minl (min maxl (u.length / 2))).map (fun len =>
            ((repeatedSubstrings u len).map (fun s =>
              (pairsOf (occurrencesOf u s)).countP
                (fun p => decide (f ∣ (p.2 - p.1))))).sum)).sum
        else 0 := by
  unfold voteList
  rw [buildSequences_eq]
  unfold allEntries
  rw [List.flatMap_assoc, List.count_flatMap]
  have hper : ∀ len ∈ lensDesc minl (min maxl (u.length / 2)),
      (List.count f ∘ fun len =>
        ((newKeys u len (u.length + 1 - len)).map
          (fun s => (s, occurrencesOf u s))).flatMap (entryVotes maxl)) len
      = if 1 < f ∧ f ≤ maxl then
          ((repeatedSubstrings u len).map (fun s =>
            (pairsOf (occurrencesOf u s)).countP
              (fun p => decide (f ∣ (p.2 - p.1))))).sum
        else 0 := by
    intro len hlen
    have hlenu : len ≤ u.length := lensDesc_le u minl maxl len hlen
    simp only [Function.comp_apply]
    rw [List.count_flatMap, List.map_map]
    have hterm : ∀ s ∈ newKeys u len (u.length + 1 - len),
        ((List.count f ∘ entryVotes maxl) ∘ fun s => (s, occurrencesOf u s)) s
        = if 1 < f ∧ f ≤ maxl then
            (pairsOf (occurrencesOf u s)).countP
              (fun p => decide (f ∣ (p.2 - p.1)))
          else 0 := by
      intro s hs
      simp only [Function.comp_apply]
      exact entryVotes_count maxl f s (occurrencesOf u s)
        (occurrencesOf_sorted u s)
        (mem_newKeys_repeated (by omega) hs)
    rw [List.map_congr_left hterm]
    by_cases hg : 1 < f ∧ f ≤ maxl
    · rw [if_pos hg, List.map_congr_left (fun s _ => if_pos hg)]
      exact ((newKeys_perm_repeated u len hlenu).map _).sum_eq
    · rw [if_neg hg]
      apply List.sum_eq_zero
      intro x hx
      rcases List.mem_map.mp hx with ⟨s, hs, rfl⟩
      exact if_neg hg
  rw [List.map_congr_left hper]
  by_cases hg : 1 < f ∧ f ≤ maxl
  · rw [if_pos hg]
    congr 1
    exact List.map_congr_left (fun len _ => if_pos hg)
  · rw [if_neg hg]
    apply List.sum_eq_zero
    intro x hx
    rcases List.mem_map.mp hx with ⟨len, _, rfl⟩
    exact if_neg hg

theorem voteList_count_spec (t : List ℕ) (minl maxl f : ℕ) :
    (voteList (get_alphabetic_chars t) minl maxl).count f
      = specVotes t minl maxl f := by
  rw [voteList_count]
  simp only [specVotes]

theorem foldlOpt_eq_foldl {α β : Type} (g : β → α → Option β) (f : β → α → β)
    (l : List α) (h : ∀ a ∈ l, ∀ b, g b a = some (f b a)) :
    ∀ b : β, foldlOpt g b l = some (l.foldl f b) := by
  induction l with
  | nil => intro b; rfl
  | cons x xs ih =>
    intro b
    rw [List.foldl_cons]
    simp only [foldlOpt]
    rw [h x (List.mem_cons_self x xs)]
    exact ih (fun a ha b2 => h a (List.mem_cons_of_mem _ ha) b2) (f b x)

/-- On in-bounds positions the partial scan step is the total one. -/
theorem scanStepP_eq (t : List ℕ) (len : ℕ) (m : List (List ℕ × List ℕ))
    (i : ℕ) (h : i + 1 ≤ t.length) :
    scanStepP t len m i = some (scanStep t len m i) := by
  have h2 : ¬ t.length < i + 1 := by omega
  simp only [scanStepP, scanStep, if_neg h2]
  split_ifs <;> rfl

/-- For sequence lengths of at least `1` every scanned position is in bounds,
so the partial inner loop never faults and agrees with the total one. -/
theorem scanLenP_eq (t : List ℕ) (m : List (List ℕ × List ℕ)) (len : ℕ)
    (h : 1 ≤ len) : scanLenP t m len = some (scanLen t m len) := by
  unfold scanLenP scanLen
  apply foldlOpt_eq_foldl
  intro i hi b
  rw [List.mem_range] at hi
  exact scanStepP_eq t len b i (by omega)

theorem buildSequencesP_eq (t : List ℕ) (minLen maxLen : ℕ)
    (h : 1 ≤ minLen) :
    buildSequencesP t minLen maxLen = some (buildSequences t minLen maxLen) := by
  unfold buildSequencesP buildSequences
  apply foldlOpt_eq_foldl
  intro len hlen m
  have hge : minLen ≤ len := by
    unfold lensDesc at hlen
    rw [List.mem_reverse, List.mem_range'_1] at hlen
    exact hlen.1
  exact scanLenP_eq t m len (by omega)

/-- For `1 ≤ min_len` the scan never hits the out-of-bounds slice: the
partial model returns the total function's value. -/
theorem estimate_key_lengthsP_eq (t : List ℕ) (min_len max_len : ℕ)
    (h : 1 ≤ min_len) :
    estimate_key_lengthsP t min_len max_len
      = some (estimate_key_lengths t min_len max_len) := by
  simp only [estimate_key_lengthsP, estimate_key_lengths]
  split_ifs
  · rfl
  · rw [buildSequencesP_eq _ _ _ h]
    rfl

/-- **C5 counterexample.**  The claim quantifies over all bounds with
`min_len ≤ max_len`, but at `min_len = 0` on a text with no alphabetic
characters (here `"123"`) `estimate_key_lengths` does not return at all: the
length-`0` scan reaches position `i = 0` of the empty filtered text and the
suffix slice `alpha_text[(i+1)..]` is out of bounds, a panic — the faithful
partial model yields `none` instead of a sorted vote list. -/
theorem claim_C5_counterexample :
    (0 : ℕ) ≤ 20 ∧ estimate_key_lengthsP [49, 50, 51] 0 20 = none :=
  ⟨by decide, by rfl⟩

/-- **C5 (amended: `1 ≤ min_len` required; the source panics for
`min_len = 0` on alphabet-free text).**  For bounds
`1 ≤ min_len ≤ max_len`, `estimate_key_lengths` terminates normally (the
partial model returns `some` of the total value), counts one vote for each
factor `1 < f ≤ max_len` of each pairwise distance between occurrence
positions of every repeated substring (over the scanned sequence lengths),
and returns the (factor, vote-count) pairs sorted by descending vote count
with ties broken by ascending factor: the output is sorted under
`pairBefore`, and its entries are exactly the in-range factors paired with
their nonzero spec-level vote counts. -/
theorem claim_C5 (t : List ℕ) (min_len max_len : ℕ) (h1 : 1 ≤ min_len)
    (h : min_len ≤ max_len) :
    estimate_key_lengthsP t min_len max_len
      = some (estimate_key_lengths t min_len max_len) ∧
    List.Pairwise pairBefore (estimate_key_lengths t min_len max_len) ∧
    ∀ f v, ((f, v) ∈ estimate_key_lengths t min_len max_len
      ↔ (1 < f ∧ f ≤ max_len ∧ v = specVotes t min_len max_len f ∧ v ≠ 0)) := by
  refine ⟨estimate_key_lengthsP_eq t min_len max_len h1, ?_, ?_⟩
  · simp only [estimate_key_lengths]
    split_ifs
    · exact List.Pairwise.nil
    · exact List.sorted_insertionSort pairBefore _
  · intro f v
    simp only [estimate_key_lengths]
    split_ifs with hshort
    · have hlens : lensDesc min_len
          (min max_len ((get_alphabetic_chars t).length / 2)) = [] := by
        unfold lensDesc
        rw [show min max_len ((get_alphabetic_chars t).length / 2) + 1 - min_len
            = 0 by omega]
        rfl
      have hzero : specVotes t min_len max_len f = 0 := by
        simp [specVotes, hlens]
      constructor
      · intro hmem
        exact absurd hmem (List.not_mem_nil _)
      · rintro ⟨_, _, hv, hne⟩
        rw [hzero] at hv
        exact absurd hv hne
    · rw [(List.perm_insertionSort pairBefore _).mem_iff, List.mem_map]
      constructor
      · rintro ⟨g, hg, heq⟩
        rw [List.mem_dedup] at hg
        rw [Prod.mk.injEq] at heq
        obtain ⟨rfl, hcount⟩ := heq
        have hcnt0 : (voteList (get_alphabetic_chars t) min_len max_len).count g
            ≠ 0 := by
          intro hc
          exact absurd hg (List.count_eq_zero.mp hc)
        have hspec := voteList_count_spec t min_len max_len g
        have hguard : 1 < g ∧ g ≤ max_len := by
          by_contra hng
          have hz : specVotes t min_len max_len g = 0 := by
            simp only [specVotes]
            rw [if_neg hng]
          rw [hz] at hspec
          exact hcnt0 hspec
        exact ⟨hguard.1, hguard.2, by rw [← hcount, hspec],
          by rw [← hcount]; exact hcnt0⟩
      · rintro ⟨h1f, hfmax, hv, hvne⟩
        have hspec := voteList_count_spec t min_len max_len f
        refine ⟨f, ?_, ?_⟩
        · rw [List.mem_dedup]
          by_contra hnot
          have hz := List.count_eq_zero.mpr hnot
          rw [hspec] at hz
          rw [hz] at hv
          exact hvne hv
        · rw [Prod.mk.injEq]
          exact ⟨rfl, by rw [hspec, ← hv]⟩

/-- **C5 witness.**  The claim instantiated on `"ABCABC"` with bounds
`(3, 5)`, where the scan terminates normally and the single repeated
substring `"ABC"` yields one vote for the factor `3`. -/
theorem claim_C5_witness :
    estimate_key_lengthsP [65, 66, 67, 65, 66, 67] 3 5
      = some (estimate_key_lengths [65, 66, 67, 65, 66, 67] 3 5) ∧
    List.Pairwise pairBefore (estimate_key_lengths [65, 66, 67, 65, 66, 67] 3 5) ∧
    ((3, 1) ∈ estimate_key_lengths [65, 66, 67, 65, 66, 67] 3 5
      ↔ (1 < 3 ∧ 3 ≤ 5 ∧ 1 = specVotes [65, 66, 67, 65, 66, 67] 3 5 3 ∧
          (1 : ℕ) ≠ 0)) :=
  ⟨(claim_C5 [65, 66, 67, 65, 66, 67] 3 5 (by decide) (by decide)).1,
   (claim_C5 [65, 66, 67, 65, 66, 67] 3 5 (by decide) (by decide)).2.1,
   (claim_C5 [65, 66, 67, 65, 66, 67] 3 5 (by decide) (by decide)).2.2 3 1⟩

end Peekaboo
